import Mathlib

/-!
Verification development for the editing-and-translation tool repository.

The repository's algorithmic core (src/app.py) is built on Python's
difflib.SequenceMatcher: `token_opcodes` aligns whitespace tokens,
`compute_scores` computes metric sets (with a character-level
SequenceMatcher ratio as the always-available similarity fallback), and
`compute_points` combines scores into a points value.  src/utils.py and
src/main.py hold a second prototype (calculate_metrics, classify_errors,
the FastAPI /submit/ endpoint).

The embedding below mirrors CPython's difflib for the configuration the
repository uses everywhere: `SequenceMatcher(None, a, b)`, i.e.
`isjunk = None` (so the junk set is empty) and `autojunk = True` (so the
popular-element heuristic applies when the second sequence has at least
200 elements).  Representation choices, noted where they occur:

* Python dictionaries that are only ever read through `.get` are
  embedded as their lookup functions (`b2jGet`, and `Nat → Nat` with
  default 0 for the `j2len` chain-length dict);
* Python ints are `Nat` where the source values are provably
  non-negative; float literals are the exact rationals they denote and
  float arithmetic is exact rational arithmetic;
* out-of-range indexing (which the source never performs on the paths
  modelled) is totalised through `List.get?`;
* calls into optional third-party scoring libraries (sacrebleu,
  bert_score, Levenshtein, difflib.ndiff, random) are parameters of the
  embedding: a call either returns a value or raises.
-/

/-- `text.split()` in Python: split on whitespace runs, dropping empty
pieces.  Both `token_opcodes` and `classify_errors` tokenize this way. -/
def pySplit (s : String) : List String :=
  (s.split (fun c => c.isWhitespace)).filter (fun t => t ≠ "")

/-- Python slice `l[i:j]` for `0 ≤ i ≤ j` (clamped at the length). -/
def sliceL {α : Type} (l : List α) (i j : Nat) : List α :=
  (l.drop i).take (j - i)

/-- `" ".join(l)`. -/
def joinSp (l : List String) : String := String.intercalate (" ") l

/-- `a[i] == b[j]`, guarded: the source only compares in-range indices. -/
def eqAt {α : Type} [DecidableEq α] (a b : List α) (i j : Nat) : Bool :=
  match a.get? i, b.get? j with
  | some x, some y => decide (x = y)
  | _, _ => false

/-- `ntest = n // 100 + 1` from `SequenceMatcher.__chain_b`. -/
def smNtest {α : Type} (b : List α) : Nat := b.length / 100 + 1

/-- The ascending list of positions of `x` in `b`: the value `b2j[x]`
built by `__chain_b` before purging. -/
def smPositions {α : Type} [DecidableEq α] (b : List α) (x : α) : List Nat :=
  (List.range b.length).filter (fun j => decide (b.get? j = some x))

/-- `self.b2j.get(x, [])` after `__chain_b` with `isjunk = None` and
`autojunk = True`: the positions of `x`, unless `x` was purged as
popular (`len(b) >= 200` and more than `ntest` occurrences).
The dict is only read through `.get`, so it is embedded as this lookup
function. -/
def b2jGet {α : Type} [DecidableEq α] (b : List α) (x : α) : List Nat :=
  let pos := smPositions b x
  if 200 ≤ b.length ∧ smNtest b < pos.length then [] else pos

/-- The running best match of `find_longest_match`. -/
structure SMBest where
  besti : Nat
  bestj : Nat
  bestsize : Nat
deriving DecidableEq

/-- A matching block `(i, j, size)`. -/
structure SMMatch where
  i : Nat
  j : Nat
  size : Nat
deriving DecidableEq

/-- Inner loop of `find_longest_match` over `b2j.get(a[i], [])` for one
row `i`:
```
for j in b2j.get(a[i], nothing):
    if j < blo: continue
    if j >= bhi: break
    k = newj2len[j] = j2len.get(j-1, 0) + 1
    if k > bestsize:
        besti, bestj, bestsize = i-k+1, j-k+1, k
```
`j2prev` is the previous row's dict, `newj2len` the dict being built;
a value 0 is "key absent" (stored values are always positive).  The
lookup `j2len.get(j-1, 0)` for `j = 0` asks for key `-1`, which is never
present, hence `prevAt`. -/
def prevAt (d : Nat → Nat) : Nat → Nat
  | 0 => 0
  | jj + 1 => d jj

def smInner (blo bhi i : Nat) (j2prev : Nat → Nat) :
    List Nat → (Nat → Nat) → SMBest → ((Nat → Nat) × SMBest)
  | [], newj2len, best => (newj2len, best)
  | j :: js, newj2len, best =>
    if j < blo then smInner blo bhi i j2prev js newj2len best
    else if bhi ≤ j then (newj2len, best)
    else
      let k := prevAt j2prev j + 1
      let newj2len2 := Function.update newj2len j k
      let best2 : SMBest :=
        if best.bestsize < k then ⟨i + 1 - k, j + 1 - k, k⟩ else best
      smInner blo bhi i j2prev js newj2len2 best2

/-- Outer loop of `find_longest_match` over `i in range(alo, ahi)`;
each row starts a fresh `newj2len = {}` and then `j2len = newj2len`. -/
def smRows {α : Type} [DecidableEq α] (a b : List α) (blo bhi : Nat) :
    List Nat → (Nat → Nat) → SMBest → SMBest
  | [], _, best => best
  | i :: is, j2len, best =>
    let js := match a.get? i with | some x => b2jGet b x | none => []
    let r := smInner blo bhi i j2len js (fun _ => 0) best
    smRows a b blo bhi is r.1 r.2

/-- One of the two leftward extension loops of `find_longest_match`:
```
while besti > alo and bestj > blo and good(b[bestj-1]) and a[besti-1] == b[bestj-1]:
    besti, bestj, bestsize = besti-1, bestj-1, bestsize+1
```
with `good = (not isbjunk)` for the first loop and `good = isbjunk` for
the third. -/
def smExtL {α : Type} [DecidableEq α] (a b : List α) (good : α → Bool)
    (alo blo : Nat) (besti bestj bestsize : Nat) : Nat × Nat × Nat :=
  if h : alo < besti ∧ blo < bestj ∧
      (match b.get? (bestj - 1) with | some y => good y | none => false) = true ∧
      eqAt a b (besti - 1) (bestj - 1) = true then
    smExtL a b good alo blo (besti - 1) (bestj - 1) (bestsize + 1)
  else (besti, bestj, bestsize)
termination_by besti
decreasing_by omega

/-- The matching rightward extension loop:
```
while besti+bestsize < ahi and bestj+bestsize < bhi and good(b[bestj+bestsize]) \
      and a[besti+bestsize] == b[bestj+bestsize]:
    bestsize += 1
``` -/
def smExtR {α : Type} [DecidableEq α] (a b : List α) (good : α → Bool)
    (ahi bhi : Nat) (besti bestj bestsize : Nat) : Nat :=
  if h : besti + bestsize < ahi ∧ bestj + bestsize < bhi ∧
      (match b.get? (bestj + bestsize) with | some y => good y | none => false) = true ∧
      eqAt a b (besti + bestsize) (bestj + bestsize) = true then
    smExtR a b good ahi bhi besti bestj (bestsize + 1)
  else bestsize
termination_by ahi - (besti + bestsize)
decreasing_by omega

/-- `SequenceMatcher.find_longest_match(alo, ahi, blo, bhi)`.  `bjunk`
is the junk set (`self.bjunk.__contains__`); the repository always
passes `isjunk = None`, making it empty, but the four extension loops
are embedded in full. -/
def smFindLongestMatch {α : Type} [DecidableEq α] (a b : List α) (bjunk : α → Bool)
    (alo ahi blo bhi : Nat) : SMMatch :=
  let best0 := smRows a b blo bhi (List.range' alo (ahi - alo)) (fun _ => 0) ⟨alo, blo, 0⟩
  let e1 := smExtL a b (fun y => !bjunk y) alo blo best0.besti best0.bestj best0.bestsize
  let s2 := smExtR a b (fun y => !bjunk y) ahi bhi e1.1 e1.2.1 e1.2.2
  let e3 := smExtL a b bjunk alo blo e1.1 e1.2.1 s2
  let s4 := smExtR a b bjunk ahi bhi e3.1 e3.2.1 e3.2.2
  ⟨e3.1, e3.2.1, s4⟩


/-- Well-formedness of the `j2len` dict fed into row `i`: entries were
written by row `i - 1`, are positive only inside `[blo, bhi)`, have
chain length bounded by both coordinates, and record an elementwise
match ending at `(i - 1, j)`. -/
def J2Ok {α : Type} (a b : List α) (alo blo bhi i : Nat) (d : Nat → Nat) : Prop :=
  ∀ j, d j ≠ 0 →
    blo ≤ j ∧ j < bhi ∧ d j ≤ j + 1 - blo ∧ d j + alo ≤ i ∧
    ∀ t, t < d j → ∃ x, a.get? (i - 1 - t) = some x ∧ b.get? (j - t) = some x

/-- What `find_longest_match` guarantees of its running best triple:
either still the initial `(alo, blo, 0)`, or a genuine in-range
elementwise match. -/
def BestOk {α : Type} (a b : List α) (alo ahi blo bhi : Nat) (bst : SMBest) : Prop :=
  (bst.bestsize = 0 ∧ bst.besti = alo ∧ bst.bestj = blo) ∨
  (1 ≤ bst.bestsize ∧ alo ≤ bst.besti ∧ blo ≤ bst.bestj ∧
   bst.besti + bst.bestsize ≤ ahi ∧ bst.bestj + bst.bestsize ≤ bhi ∧
   ∀ t, t < bst.bestsize →
     ∃ x, a.get? (bst.besti + t) = some x ∧ b.get? (bst.bestj + t) = some x)

theorem eqAt_some {α : Type} [DecidableEq α] {a b : List α} {i j : Nat}
    (h : eqAt a b i j = true) : ∃ x, a.get? i = some x ∧ b.get? j = some x := by
  unfold eqAt at h
  rcases ha : a.get? i with _ | x <;> rcases hb : b.get? j with _ | y <;>
      rw [ha, hb] at h <;> simp at h
  exact ⟨x, rfl, by rw [h]⟩

theorem mem_b2jGet {α : Type} [DecidableEq α] {b : List α} {x : α} {j : Nat}
    (h : j ∈ b2jGet b x) : b.get? j = some x := by
  simp only [b2jGet] at h
  split at h
  · simp at h
  · unfold smPositions at h
    simp only [List.mem_filter, decide_eq_true_eq] at h
    exact h.2

theorem prevAt_cases (d : Nat → Nat) (j : Nat) :
    prevAt d j = 0 ∨ (1 ≤ j ∧ prevAt d j = d (j - 1)) := by
  rcases j with _ | jj
  · left; rfl
  · right; exact ⟨by omega, rfl⟩

theorem smInner_ok {α : Type} [DecidableEq α] {a b : List α}
    {alo ahi blo bhi i : Nat} (hi1 : alo ≤ i) (hi2 : i < ahi) {j2prev : Nat → Nat}
    (hprev : J2Ok a b alo blo bhi i j2prev) :
    ∀ js (d : Nat → Nat) best,
      (∀ j ∈ js, ∃ x, a.get? i = some x ∧ b.get? j = some x) →
      J2Ok a b alo blo bhi (i + 1) d →
      BestOk a b alo ahi blo bhi best →
      J2Ok a b alo blo bhi (i + 1) (smInner blo bhi i j2prev js d best).1 ∧
      BestOk a b alo ahi blo bhi (smInner blo bhi i j2prev js d best).2 := by
  intro js
  induction js with
  | nil => intro d best _ hd hb; exact ⟨hd, hb⟩
  | cons j js ih =>
    intro d best hjs hd hb
    have hjmem : ∃ x, a.get? i = some x ∧ b.get? j = some x := hjs j (by simp)
    have hjs2 : ∀ jj ∈ js, ∃ x, a.get? i = some x ∧ b.get? jj = some x :=
      fun jj hm => hjs jj (by simp [hm])
    unfold smInner
    by_cases h1 : j < blo
    · rw [if_pos h1]
      exact ih d best hjs2 hd hb
    · rw [if_neg h1]
      by_cases h2 : bhi ≤ j
      · rw [if_pos h2]
        exact ⟨hd, hb⟩
      · rw [if_neg h2]
        push_neg at h1 h2
        have hkfacts : prevAt j2prev j + 1 ≤ j + 1 - blo ∧
            (prevAt j2prev j + 1) + alo ≤ i + 1 ∧
            ∀ t, t < prevAt j2prev j + 1 →
              ∃ x, a.get? (i - t) = some x ∧ b.get? (j - t) = some x := by
          rcases prevAt_cases j2prev j with hc | ⟨hj1, hc⟩
          · rw [hc]
            refine ⟨by omega, by omega, ?_⟩
            intro t ht
            have ht0 : t = 0 := by omega
            subst ht0
            simpa using hjmem
          · rw [hc]
            by_cases hz : j2prev (j - 1) = 0
            · rw [hz]
              refine ⟨by omega, by omega, ?_⟩
              intro t ht
              have ht0 : t = 0 := by omega
              subst ht0
              simpa using hjmem
            · obtain ⟨hc1, hc2, hc3, hc4, hchain⟩ := hprev (j - 1) hz
              refine ⟨by omega, by omega, ?_⟩
              intro t ht
              rcases t with _ | t2
              · simpa using hjmem
              · obtain ⟨x, hx1, hx2⟩ := hchain t2 (by omega)
                refine ⟨x, ?_, ?_⟩
                · have he : i - 1 - t2 = i - (t2 + 1) := by omega
                  rwa [he] at hx1
                · have he : j - 1 - t2 = j - (t2 + 1) := by omega
                  rwa [he] at hx2
        obtain ⟨hk1, hk2, hkchain⟩ := hkfacts
        have hd2 : J2Ok a b alo blo bhi (i + 1)
            (Function.update d j (prevAt j2prev j + 1)) := by
          intro j2 hne
          rcases eq_or_ne j2 j with rfl | hjj
          · simp only [Function.update_same] at hne ⊢
            refine ⟨by omega, h2, hk1, hk2, ?_⟩
            intro t ht
            have := hkchain t ht
            simpa using this
          · rw [Function.update_apply] at hne ⊢
            simp only [if_neg hjj] at hne ⊢
            exact hd j2 hne
        have hb2 : BestOk a b alo ahi blo bhi
            (if best.bestsize < prevAt j2prev j + 1 then
              (⟨i + 1 - (prevAt j2prev j + 1), j + 1 - (prevAt j2prev j + 1),
                prevAt j2prev j + 1⟩ : SMBest)
             else best) := by
          by_cases hcmp : best.bestsize < prevAt j2prev j + 1
          · rw [if_pos hcmp]
            right
            dsimp only
            refine ⟨by omega, by omega, by omega, by omega, by omega, ?_⟩
            · intro t ht
              obtain ⟨x, hx1, hx2⟩ := hkchain (prevAt j2prev j + 1 - 1 - t) (by omega)
              refine ⟨x, ?_, ?_⟩
              · have he : i - (prevAt j2prev j + 1 - 1 - t) =
                    i + 1 - (prevAt j2prev j + 1) + t := by omega
                rwa [he] at hx1
              · have he : j - (prevAt j2prev j + 1 - 1 - t) =
                    j + 1 - (prevAt j2prev j + 1) + t := by omega
                rwa [he] at hx2
          · rw [if_neg hcmp]
            exact hb
        exact ih _ _ hjs2 hd2 hb2

theorem smRows_ok {α : Type} [DecidableEq α] {a b : List α}
    {alo ahi blo bhi : Nat} :
    ∀ cnt i (d : Nat → Nat) best, alo ≤ i → (cnt ≠ 0 → i + cnt ≤ ahi) →
      J2Ok a b alo blo bhi i d →
      BestOk a b alo ahi blo bhi best →
      BestOk a b alo ahi blo bhi
        (smRows a b blo bhi (List.range' i cnt) d best) := by
  intro cnt
  induction cnt with
  | zero => intro i d best _ _ _ hb; simpa [smRows] using hb
  | succ n ih =>
    intro i d best hi1 hi2 hd hb
    have hi3 : i + (n + 1) ≤ ahi := hi2 (by omega)
    rw [List.range'_succ]
    unfold smRows
    have hjs : ∀ j ∈ (match a.get? i with | some x => b2jGet b x | none => []),
        ∃ x, a.get? i = some x ∧ b.get? j = some x := by
      rcases hga : a.get? i with _ | x
      · simp
      · intro j hj
        simp only [hga] at hj
        exact ⟨x, rfl, mem_b2jGet hj⟩
    have hd2 : J2Ok a b alo blo bhi (i + 1) (fun _ => 0) := by
      intro j hj; simp at hj
    have h := smInner_ok hi1 (by omega) hd
      (match a.get? i with | some x => b2jGet b x | none => [])
      (fun _ => 0) best hjs hd2 hb
    exact ih (i + 1) _ _ (by omega) (by omega) h.1 h.2

theorem smExtL_ok {α : Type} [DecidableEq α] {a b : List α} (good : α → Bool)
    {alo ahi blo bhi : Nat} :
    ∀ bi bj bs, BestOk a b alo ahi blo bhi ⟨bi, bj, bs⟩ →
      BestOk a b alo ahi blo bhi
        ⟨(smExtL a b good alo blo bi bj bs).1,
         (smExtL a b good alo blo bi bj bs).2.1,
         (smExtL a b good alo blo bi bj bs).2.2⟩ := by
  intro bi
  induction bi using Nat.strong_induction_on with
  | _ bi ih =>
    intro bj bs hb
    rw [smExtL]
    split
    · rename_i h
      obtain ⟨h1, h2, _, h4⟩ := h
      have hbs2 : BestOk a b alo ahi blo bhi ⟨bi - 1, bj - 1, bs + 1⟩ := by
        obtain ⟨x, hx1, hx2⟩ := eqAt_some h4
        rcases hb with ⟨hz, hbi, hbj⟩ | ⟨hs1, hs2, hs3, hs4, hs5, hchain⟩
        · simp only at hz hbi hbj
          omega
        · simp only at hs1 hs2 hs3 hs4 hs5 hchain
          right
          dsimp only
          refine ⟨by omega, by omega, by omega, by omega, by omega, ?_⟩
          intro t ht
          rcases t with _ | t2
          · refine ⟨x, ?_, ?_⟩
            · simpa using hx1
            · simpa using hx2
          · obtain ⟨y, hy1, hy2⟩ := hchain t2 (by omega)
            refine ⟨y, ?_, ?_⟩
            · have he : bi + t2 = bi - 1 + (t2 + 1) := by omega
              rwa [he] at hy1
            · have he : bj + t2 = bj - 1 + (t2 + 1) := by omega
              rwa [he] at hy2
      exact ih (bi - 1) (by omega) (bj - 1) (bs + 1) hbs2
    · exact hb

theorem smExtR_ok {α : Type} [DecidableEq α] {a b : List α} (good : α → Bool)
    {alo ahi blo bhi : Nat} :
    ∀ fuel bi bj bs, ahi - (bi + bs) ≤ fuel →
      BestOk a b alo ahi blo bhi ⟨bi, bj, bs⟩ →
      BestOk a b alo ahi blo bhi ⟨bi, bj, smExtR a b good ahi bhi bi bj bs⟩ := by
  intro fuel
  induction fuel with
  | zero =>
    intro bi bj bs hf hb
    rw [smExtR]
    split
    · rename_i h; omega
    · exact hb
  | succ n ih =>
    intro bi bj bs hf hb
    rw [smExtR]
    split
    · rename_i h
      obtain ⟨h1, h2, _, h4⟩ := h
      have hbs2 : BestOk a b alo ahi blo bhi ⟨bi, bj, bs + 1⟩ := by
        obtain ⟨x, hx1, hx2⟩ := eqAt_some h4
        rcases hb with ⟨hz, hbi, hbj⟩ | ⟨hs1, hs2, hs3, hs4, hs5, hchain⟩
        · simp only at hz hbi hbj
          subst hz
          right
          dsimp only
          refine ⟨by omega, by omega, by omega, by omega, by omega, ?_⟩
          intro t ht
          have ht0 : t = 0 := by omega
          subst ht0
          subst hbi
          subst hbj
          exact ⟨x, by simpa using hx1, by simpa using hx2⟩
        · simp only at hs1 hs2 hs3 hs4 hs5 hchain
          right
          dsimp only
          refine ⟨by omega, by omega, by omega, by omega, by omega, ?_⟩
          intro t ht
          by_cases htb : t < bs
          · exact hchain t htb
          · have ht0 : t = bs := by omega
            subst ht0
            exact ⟨x, hx1, hx2⟩
      exact ih bi bj (bs + 1) (by omega) hbs2
    · exact hb

theorem smFLM_ok {α : Type} [DecidableEq α] (a b : List α) (bjunk : α → Bool)
    (alo ahi blo bhi : Nat) :
    BestOk a b alo ahi blo bhi
      ⟨(smFindLongestMatch a b bjunk alo ahi blo bhi).i,
       (smFindLongestMatch a b bjunk alo ahi blo bhi).j,
       (smFindLongestMatch a b bjunk alo ahi blo bhi).size⟩ := by
  unfold smFindLongestMatch
  have h0 : BestOk a b alo ahi blo bhi
      (smRows a b blo bhi (List.range' alo (ahi - alo)) (fun _ => 0) ⟨alo, blo, 0⟩) := by
    apply smRows_ok (ahi - alo) alo (fun _ => 0) ⟨alo, blo, 0⟩ (le_refl alo) (by omega)
    · intro j hj; simp at hj
    · left; exact ⟨rfl, rfl, rfl⟩
  set best0 := smRows a b blo bhi (List.range' alo (ahi - alo)) (fun _ => 0)
    (⟨alo, blo, 0⟩ : SMBest) with hbest0
  have h1 := @smExtL_ok α _ a b (fun y => !bjunk y)
    alo ahi blo bhi best0.besti best0.bestj best0.bestsize (by
      rcases h0 with h | h
      · left; exact h
      · right; exact h)
  set e1 := smExtL a b (fun y => !bjunk y) alo blo best0.besti best0.bestj best0.bestsize
    with he1
  have h2 := @smExtR_ok α _ a b (fun y => !bjunk y)
    alo ahi blo bhi (ahi - (e1.1 + e1.2.2)) e1.1 e1.2.1 e1.2.2 (le_refl _) h1
  set s2 := smExtR a b (fun y => !bjunk y) ahi bhi e1.1 e1.2.1 e1.2.2 with hs2
  have h3 := @smExtL_ok α _ a b bjunk alo ahi blo bhi
    e1.1 e1.2.1 s2 h2
  set e3 := smExtL a b bjunk alo blo e1.1 e1.2.1 s2 with he3
  have h4 := @smExtR_ok α _ a b bjunk alo ahi blo bhi
    (ahi - (e3.1 + e3.2.2)) e3.1 e3.2.1 e3.2.2 (le_refl _) h3
  exact h4

theorem smFLM_basic {α : Type} [DecidableEq α] (a b : List α) (bjunk : α → Bool)
    (alo ahi blo bhi : Nat)
    (h : (smFindLongestMatch a b bjunk alo ahi blo bhi).size ≠ 0) :
    alo ≤ (smFindLongestMatch a b bjunk alo ahi blo bhi).i ∧
    blo ≤ (smFindLongestMatch a b bjunk alo ahi blo bhi).j ∧
    (smFindLongestMatch a b bjunk alo ahi blo bhi).i +
      (smFindLongestMatch a b bjunk alo ahi blo bhi).size ≤ ahi ∧
    (smFindLongestMatch a b bjunk alo ahi blo bhi).j +
      (smFindLongestMatch a b bjunk alo ahi blo bhi).size ≤ bhi := by
  have hok := smFLM_ok a b bjunk alo ahi blo bhi
  rcases hok with ⟨hz, _, _⟩ | ⟨_, h2, h3, h4, h5, _⟩
  · exact absurd hz h
  · exact ⟨h2, h3, h4, h5⟩

/-- The empty junk set: the repository always constructs
`SequenceMatcher(None, a, b)`. -/
def noJunk {α : Type} : α → Bool := fun _ => false

/-- A work-queue rectangle `(alo, ahi, blo, bhi)` of
`get_matching_blocks`. -/
structure SMRect where
  alo : Nat
  ahi : Nat
  blo : Nat
  bhi : Nat
deriving DecidableEq

/-- The `while queue` loop of `get_matching_blocks`.  Python pops from
the end of the list and pushes the left sub-rectangle before the right
one; with the head of the Lean list as the top of the stack this is the
push order below (right child ends up on top, popped first).  The two
pushes are guarded exactly as in the source (`alo < i and blo < j`,
`i+k < ahi and j+k < bhi`), and a block is recorded only when `k` is
non-zero. -/
def smBlocksLoop {α : Type} [DecidableEq α] (a b : List α) (bjunk : α → Bool) :
    List SMRect → List SMMatch → List SMMatch
  | [], acc => acc
  | r :: rest, acc =>
    match hm2 : smFindLongestMatch a b bjunk r.alo r.ahi r.blo r.bhi with
    | ⟨mi, mj, ms⟩ =>
      if hm : ms = 0 then smBlocksLoop a b bjunk rest acc
      else
        if r.alo < mi ∧ r.blo < mj then
          if mi + ms < r.ahi ∧ mj + ms < r.bhi then
            smBlocksLoop a b bjunk
              (⟨mi + ms, r.ahi, mj + ms, r.bhi⟩ ::
                ⟨r.alo, mi, r.blo, mj⟩ :: rest) (acc ++ [⟨mi, mj, ms⟩])
          else
            smBlocksLoop a b bjunk (⟨r.alo, mi, r.blo, mj⟩ :: rest)
              (acc ++ [⟨mi, mj, ms⟩])
        else
          if mi + ms < r.ahi ∧ mj + ms < r.bhi then
            smBlocksLoop a b bjunk (⟨mi + ms, r.ahi, mj + ms, r.bhi⟩ :: rest)
              (acc ++ [⟨mi, mj, ms⟩])
          else
            smBlocksLoop a b bjunk rest (acc ++ [⟨mi, mj, ms⟩])
termination_by q _ => (q.map (fun r => 2 * (r.ahi - r.alo) + 1)).sum
decreasing_by
  all_goals simp only [List.map_cons, List.sum_cons]
  · omega
  all_goals
    have hb := smFLM_basic a b bjunk r.alo r.ahi r.blo r.bhi (by rw [hm2]; exact hm)
    rw [hm2] at hb
    dsimp only at hb
  all_goals omega

/-- Lexicographic order on match triples: `matching_blocks.sort()`. -/
def blockLE (m m2 : SMMatch) : Prop :=
  m.i < m2.i ∨ (m.i = m2.i ∧ (m.j < m2.j ∨ (m.j = m2.j ∧ m.size ≤ m2.size)))

instance : DecidableRel blockLE := fun m m2 => by unfold blockLE; infer_instance

instance : IsTotal SMMatch blockLE := ⟨by intro x y; unfold blockLE; omega⟩

instance : IsTrans SMMatch blockLE := ⟨by intro x y z; unfold blockLE; omega⟩

/-- The adjacent-blocks collapse of `get_matching_blocks`:
```
i1 = j1 = k1 = 0
for i2, j2, k2 in matching_blocks:
    if i1 + k1 == i2 and j1 + k1 == j2:
        k1 += k2
    else:
        if k1: non_adjacent.append((i1, j1, k1))
        i1, j1, k1 = i2, j2, k2
if k1: non_adjacent.append((i1, j1, k1))
```
`cur` is the running `(i1, j1, k1)`, initially `(0, 0, 0)`. -/
def collapseAdj : SMMatch → List SMMatch → List SMMatch
  | cur, [] => if cur.size ≠ 0 then [cur] else []
  | cur, m :: rest =>
    if cur.i + cur.size = m.i ∧ cur.j + cur.size = m.j then
      collapseAdj ⟨cur.i, cur.j, cur.size + m.size⟩ rest
    else
      (if cur.size ≠ 0 then [cur] else []) ++ collapseAdj m rest

/-- `SequenceMatcher.get_matching_blocks()`: queue loop, sort, collapse,
then the terminating sentinel `(len(a), len(b), 0)`. -/
def getMatchingBlocks {α : Type} [DecidableEq α] (a b : List α) : List SMMatch :=
  let blocks := smBlocksLoop a b noJunk [⟨0, a.length, 0, b.length⟩] []
  collapseAdj ⟨0, 0, 0⟩ (List.insertionSort blockLE blocks) ++ [⟨a.length, b.length, 0⟩]

inductive OpTag
  | equal
  | insert
  | delete
  | replace
deriving DecidableEq

/-- An opcode `(tag, i1, i2, j1, j2)`. -/
structure Opcode where
  tag : OpTag
  i1 : Nat
  i2 : Nat
  j1 : Nat
  j2 : Nat
deriving DecidableEq

/-- The loop of `SequenceMatcher.get_opcodes()` walking `(i, j)` along
the matching blocks. -/
def opcodesLoop : Nat → Nat → List SMMatch → List Opcode
  | _, _, [] => []
  | i, j, m :: rest =>
    (if i < m.i ∧ j < m.j then [⟨OpTag.replace, i, m.i, j, m.j⟩]
     else if i < m.i then [⟨OpTag.delete, i, m.i, j, m.j⟩]
     else if j < m.j then [⟨OpTag.insert, i, m.i, j, m.j⟩]
     else []) ++
    (if m.size ≠ 0 then [⟨OpTag.equal, m.i, m.i + m.size, m.j, m.j + m.size⟩] else []) ++
    opcodesLoop (m.i + m.size) (m.j + m.size) rest

/-- `SequenceMatcher(None, a, b).get_opcodes()`. -/
def getOpcodes {α : Type} [DecidableEq α] (a b : List α) : List Opcode :=
  opcodesLoop 0 0 (getMatchingBlocks a b)

/-- Result record of `token_opcodes` (src/app.py). -/
structure TokenOps where
  inserts : Nat
  deletes : Nat
  replaces : Nat
  edit_ops : Nat
  insertEx : List String
  deleteEx : List String
  replaceEx : List (String × String)
deriving DecidableEq

/-- Loop state of `token_opcodes` before `edit_ops` is formed. -/
structure OpAcc where
  inserts : Nat
  deletes : Nat
  replaces : Nat
  insertEx : List String
  deleteEx : List String
  replaceEx : List (String × String)
deriving DecidableEq

/-- One iteration of the `for tag, i1, i2, j1, j2 in sm.get_opcodes()`
loop of `token_opcodes`. -/
def opStep (refT hypT : List String) (st : OpAcc) (o : Opcode) : OpAcc :=
  match o.tag with
  | OpTag.insert =>
    { st with inserts := st.inserts + (o.j2 - o.j1),
              insertEx := st.insertEx ++ [joinSp (sliceL hypT o.j1 o.j2)] }
  | OpTag.delete =>
    { st with deletes := st.deletes + (o.i2 - o.i1),
              deleteEx := st.deleteEx ++ [joinSp (sliceL refT o.i1 o.i2)] }
  | OpTag.replace =>
    { st with replaces := st.replaces + max (o.i2 - o.i1) (o.j2 - o.j1),
              replaceEx := st.replaceEx ++
                [(joinSp (sliceL refT o.i1 o.i2), joinSp (sliceL hypT o.j1 o.j2))] }
  | OpTag.equal => st

/-- `token_opcodes(ref, hyp)` from src/app.py: whitespace-tokenize both
texts, walk the opcodes of `SequenceMatcher(None, ref_tokens,
hyp_tokens)`, and total the per-category counts; `edit_ops` is formed at
the end as `inserts + deletes + replaces`.  (`ref or ""` is the
identity on the `String`-typed inputs modelled here.) -/
def token_opcodes (ref hyp : String) : TokenOps :=
  let refT := pySplit ref
  let hypT := pySplit hyp
  let st := (getOpcodes refT hypT).foldl (opStep refT hypT) ⟨0, 0, 0, [], [], []⟩
  ⟨st.inserts, st.deletes, st.replaces, st.inserts + st.deletes + st.replaces,
   st.insertEx, st.deleteEx, st.replaceEx⟩

/-- `SequenceMatcher.ratio()`: `2.0 * matches / length` where `matches`
sums the matching-block sizes, or `1.0` when both sequences are
empty. -/
def simRatioQ {α : Type} [DecidableEq α] (a b : List α) : ℚ :=
  let msum := ((getMatchingBlocks a b).map (fun m => m.size)).sum
  let len := a.length + b.length
  if len ≠ 0 then (2 * msum : ℚ) / (len : ℚ) else 1

/-- Round-half-to-even on an exact rational, the idealisation of
Python's `round` on a float value. -/
def roundHalfEven (q : ℚ) : ℤ :=
  if q - ⌊q⌋ = 1 / 2 then (if Even ⌊q⌋ then ⌊q⌋ else ⌊q⌋ + 1) else round q

/-- `round(q, 4)`. -/
def pyRound4 (q : ℚ) : ℚ := (roundHalfEven (q * 10000) : ℚ) / 10000

/-- The metric result set of `compute_scores` (src/app.py); field
`bert` is the dict key `BERT_F1`. -/
structure Scores where
  bleu : Option ℚ
  chrf : Option ℚ
  ter : Option ℚ
  bert : Option ℚ
  similarity : Option ℚ
deriving DecidableEq

/-- The runtime capability set of `compute_scores`: whether the two
optional libraries imported at module top are present, and the
behaviour of each scoring call (returning the `.score` rational or
raising).  These are parameters of the embedding because the libraries
are not part of the repository. -/
structure Providers where
  sacrebleuAvail : Bool
  bertAvail : Bool
  bleuCall : String → String → Except Unit ℚ
  chrfCall : String → String → Except Unit ℚ
  terCall : String → String → Except Unit ℚ
  bertCall : String → String → Except Unit ℚ

/-- `try: out[k] = round(call.score, 4) except Exception: out[k] = None`. -/
def tryRound4 (r : Except Unit ℚ) : Option ℚ :=
  match r with
  | Except.ok v => some (pyRound4 v)
  | Except.error _ => none

/-- `compute_scores(hyp, ref)` from src/app.py.  The guards mirror
`if ref and sacrebleu:` / `if ref and bert_score:` (`ref` is truthy iff
non-empty); the similarity fallback runs unconditionally, and its
`try` body — a pure `SequenceMatcher(None, ref or "", hyp or "").ratio()`
call — cannot raise, so it is embedded directly. -/
def compute_scores (P : Providers) (hyp ref : String) : Scores :=
  { bleu := if ref ≠ "" ∧ P.sacrebleuAvail then tryRound4 (P.bleuCall hyp ref) else none,
    chrf := if ref ≠ "" ∧ P.sacrebleuAvail then tryRound4 (P.chrfCall hyp ref) else none,
    ter := if ref ≠ "" ∧ P.sacrebleuAvail then tryRound4 (P.terCall hyp ref) else none,
    bert := if ref ≠ "" ∧ P.bertAvail then tryRound4 (P.bertCall hyp ref) else none,
    similarity := some (pyRound4 (simRatioQ ref.data hyp.data)) }

/-- Python `int()` on a rational value: truncation toward zero. -/
def pyTrunc (q : ℚ) : ℤ := if 0 ≤ q then ⌊q⌋ else ⌈q⌉

/-- `scores.get(k) or 0`: `None` and falsy `0.0` both become `0`. -/
def pyOr0 (o : Option ℚ) : ℚ :=
  match o with
  | none => 0
  | some v => if v = 0 then 0 else v

/-- `compute_points(scores, time_spent, edit_ops)` from src/app.py.
Float literals `0.2`, `0.4`, `0.5` are the exact rationals `2/10`,
`4/10`, `5/10`; `int(...)` is truncation toward zero; the final
`if pts < 0: pts = 0` clamp and the trailing `int(pts)` (identity on an
int) are as in the source. -/
def compute_points (scores : Scores) (time_spent : ℚ) (edit_ops : Nat) : ℤ :=
  let bleu := pyOr0 scores.bleu
  let bert := pyOr0 scores.bert
  let sim := pyOr0 scores.similarity
  let pts : ℤ := 10 + pyTrunc (bleu * (2 / 10)) + pyTrunc (bert * (4 / 10)) +
    pyTrunc (sim * 5) - pyTrunc (time_spent / 10) - pyTrunc ((edit_ops : ℚ) * (5 / 10))
  if pts < 0 then 0 else pts

/-- The ASCII apostrophe, written via its code point 39 to keep the
source text plain. -/
def apos : String := String.singleton (Char.ofNat 39)

/-- `classify_errors(hypothesis, reference)` from src/utils.py (the
identical copy lives in src/frontend/app.py): position-by-position
token comparison emitting one message per mismatching in-range index. -/
def classify_errors (hypothesis reference : String) : List String :=
  let hyp_words := pySplit hypothesis
  let ref_words := pySplit reference
  hyp_words.enum.filterMap (fun p =>
    match ref_words.get? p.1 with
    | some rw =>
      if p.2 ≠ rw then
        some ("Word mismatch: " ++ apos ++ p.2 ++ apos ++ " vs " ++ apos ++ rw ++ apos)
      else none
    | none => none)

/-- `generate_collocations(text)` from src/utils.py. -/
def generate_collocations (text : String) : List String :=
  let words := pySplit text
  ((List.range (words.length - 1)).map (fun i => joinSp (sliceL words i (i + 2)))).take 3

/-- The points formula as the specification states it: every missing
metric replaced by 0, truncation toward zero at each term, and a final
clamp `max(0, ...)` with no upper bound. -/
def specPoints (scores : Scores) (t : ℚ) (e : Nat) : ℤ :=
  max 0 (10 + pyTrunc (scores.bleu.getD 0 * (2 / 10)) +
    pyTrunc (scores.bert.getD 0 * (4 / 10)) +
    pyTrunc (scores.similarity.getD 0 * 5) -
    pyTrunc (t / 10) - pyTrunc ((e : ℚ) * (5 / 10)))

/-- `Σ (j2-j1)` over the insert opcodes of a span list. -/
def insSum (ops : List Opcode) : Nat :=
  ((ops.filter (fun o => decide (o.tag = OpTag.insert))).map (fun o => o.j2 - o.j1)).sum

/-- `Σ (i2-i1)` over the delete opcodes of a span list. -/
def delSum (ops : List Opcode) : Nat :=
  ((ops.filter (fun o => decide (o.tag = OpTag.delete))).map (fun o => o.i2 - o.i1)).sum

/-- `Σ max(i2-i1, j2-j1)` over the replace opcodes of a span list. -/
def repSum (ops : List Opcode) : Nat :=
  ((ops.filter (fun o => decide (o.tag = OpTag.replace))).map
    (fun o => max (o.i2 - o.i1) (o.j2 - o.j1))).sum

/-- The claimed characterisation of `classify_errors`: one message per
index below both token-sequence lengths at which the tokens differ, in
increasing index order. -/
def specMismatches (hypothesis reference : String) : List String :=
  let hw := pySplit hypothesis
  let rw := pySplit reference
  (List.range (min hw.length rw.length)).filterMap (fun i =>
    match hw.get? i, rw.get? i with
    | some w, some r =>
      if w ≠ r then
        some ("Word mismatch: " ++ apos ++ w ++ apos ++ " vs " ++ apos ++ r ++ apos)
      else none
    | _, _ => none)

/-- A concrete provider environment: both libraries present, every
scoring call returning 50.0. -/
def allOkP : Providers :=
  ⟨true, true, fun _ _ => Except.ok 50, fun _ _ => Except.ok 50,
   fun _ _ => Except.ok 50, fun _ _ => Except.ok 50⟩

/-- `allOkP` with the sacrebleu library absent. -/
def noSacreP : Providers := { allOkP with sacrebleuAvail := false }

/-- A whitespace-only (blank) string, the empty string included. -/
def isBlankStr (s : String) : Bool := s.data.all (fun c => c.isWhitespace)

/-- A Python exception, as coarse as the claims need. -/
inductive PyExc
  | nameError
  | otherExc
deriving DecidableEq

/-- The metric dict produced by `utils.calculate_metrics`. -/
structure Metrics4 where
  bleu : Option ℚ
  chrf : Option ℚ
  ter : Option ℚ
  bert : Option ℚ

/-- The request body of the `/submit/` endpoint (src/main.py). -/
structure Submission where
  student_name : String
  reference : String
  mt_output : String
  student_translation : String

/-- The response dict built by `submit_translation`. -/
structure SubmitResult where
  metrics : Metrics4
  edit_distance : Nat
  diff : String
  errors : List String
  exercises : List String
  collocations : List String
  idioms : List String
  fun_activity : String

/-- External behaviour reaching src/main.py: `calculate_metrics` may
raise (utils.py wraps no try around its library calls), and the
library/random-backed helpers are opaque values; `levDistance` stands
for `Levenshtein.distance` as it would behave if the module were
importable from main.py at all. -/
structure MainEnv where
  calcMetrics : String → String → Except PyExc Metrics4
  levDistance : String → String → Nat
  ndiffHighlight : String → String → String
  genExercises : List String → String → List String
  genIdioms : List String
  funActivity : String

/-- Every name bound at module level in src/main.py: the five imports
of lines 1-5 (with the names they bind) and the module-level
definitions.  `Levenshtein` is not among them. -/
def mainModuleNames : List String :=
  ["FastAPI", "BaseModel", "pd", "os", "calculate_metrics", "highlight_differences",
   "classify_errors", "generate_exercises", "generate_collocations", "generate_idioms",
   "fun_activity", "app", "TranslationSubmission", "submit_translation", "get_submissions"]

/-- `submit_translation(submission)` from src/main.py, line by line.
`Levenshtein.distance(...)` first resolves the global name
`Levenshtein`; resolution in the module namespace (and builtins) fails,
raising NameError before anything after line 18 runs. -/
def submit_translation (env : MainEnv) (sub : Submission) :
    Except PyExc SubmitResult := do
  let metrics ← env.calcMetrics sub.student_translation sub.reference
  let lev ← (if ("Levenshtein" : String) ∈ mainModuleNames
             then Except.ok env.levDistance else Except.error PyExc.nameError)
  let edit_distance := lev sub.student_translation sub.reference
  let diff_text := env.ndiffHighlight sub.reference sub.student_translation
  let errors := classify_errors sub.student_translation sub.reference
  let exercises := env.genExercises errors sub.student_translation
  let collos := generate_collocations sub.student_translation
  let idioms := env.genIdioms
  let activity := env.funActivity
  Except.ok ⟨metrics, edit_distance, diff_text, errors, exercises, collos,
    idioms, activity⟩

/-- One row of submissions.csv as `/submit/` would write it. -/
structure CsvRow where
  student : String
  reference : String
  mt_output : String
  translation : String
  bleu : Option ℚ
  edit_distance : Nat
  errors : String

/-- The rows appended to submissions.csv by one `/submit/` call: the
`df.to_csv` block runs only after every earlier line of the handler has
returned normally. -/
def submitCsvAppend (env : MainEnv) (sub : Submission) : List CsvRow :=
  match submit_translation env sub with
  | Except.ok r =>
    [⟨sub.student_name, sub.reference, sub.mt_output, sub.student_translation,
      r.metrics.bleu, r.edit_distance, String.intercalate ("; ") r.errors⟩]
  | Except.error _ => []

/-- A concrete quiet environment for witnesses: metrics computation
returns all-None (both libraries absent), helpers return fixed data. -/
def quietEnv : MainEnv :=
  ⟨fun _ _ => Except.ok ⟨none, none, none, none⟩,
   fun _ _ => 0, fun _ _ => "", fun _ _ => [], [], ""⟩

/-- Elementwise validity of a matching block: the two slices it pairs
are equal (and in range). -/
def BlockValid {α : Type} (a b : List α) (m : SMMatch) : Prop :=
  ∀ t, t < m.size → ∃ x, a.get? (m.i + t) = some x ∧ b.get? (m.j + t) = some x

/-- A block list is a staircase walked from `(i, j)` and ending exactly
at `e`: each block starts at or after the current position in both
coordinates, and the walk resumes at its end. -/
def WalkTo : Nat → Nat → List SMMatch → Nat × Nat → Prop
  | i, j, [], e => e = (i, j)
  | i, j, m :: rest, e => i ≤ m.i ∧ j ≤ m.j ∧ WalkTo (m.i + m.size) (m.j + m.size) rest e

/-- The chain shape of an opcode list: each opcode begins exactly where
the previous one ended (in both coordinates), ranges are non-empty in
the forward direction, and the list ends exactly at `e`. -/
def OpsChain : Nat → Nat → List Opcode → Nat × Nat → Prop
  | i, j, [], e => e = (i, j)
  | i, j, o :: rest, e =>
    o.i1 = i ∧ o.j1 = j ∧ i ≤ o.i2 ∧ j ≤ o.j2 ∧ OpsChain o.i2 o.j2 rest e

/-- The rectangle a block occupies. -/
def rectOfBlock (m : SMMatch) : SMRect := ⟨m.i, m.i + m.size, m.j, m.j + m.size⟩

/-- `r` is entirely before `r2` in both coordinates. -/
def Bef (r r2 : SMRect) : Prop := r.ahi ≤ r2.alo ∧ r.bhi ≤ r2.blo

/-- Two regions are comparable: one entirely before the other. -/
def CompR (r r2 : SMRect) : Prop := Bef r r2 ∨ Bef r2 r

/-- `r` is inside `r2`. -/
def SubR (r r2 : SMRect) : Prop :=
  r2.alo ≤ r.alo ∧ r.ahi ≤ r2.ahi ∧ r2.blo ≤ r.blo ∧ r.bhi ≤ r2.bhi

/-- Position `i` of `s` survives the popular-element purge, i.e. it is
listed in `b2j` under its own token. -/
def keptAt {α : Type} [DecidableEq α] (s : List α) (i : Nat) : Bool :=
  match s.get? i with
  | some x => decide (i ∈ b2jGet s x)
  | none => false

/-- Length of the run of kept positions of `s` ending at `i`. -/
def nkRun {α : Type} [DecidableEq α] (s : List α) : Nat → Nat
  | 0 => if keptAt s 0 then 1 else 0
  | i + 1 => if keptAt s (i + 1) then nkRun s i + 1 else 0

/-- The largest kept run ending strictly below row `i`. -/
def maxDiag {α : Type} [DecidableEq α] (s : List α) : Nat → Nat
  | 0 => 0
  | i + 1 => max (maxDiag s i) (nkRun s i)

/-- Positionwise comparison of two token lists under `G`, stopping at
the shorter list: the common shape of `classify_errors` and its
specification. -/
def cmpWith (G : String → String → Option String) :
    List String → List String → List String
  | [], _ => []
  | _ :: _, [] => []
  | w :: ws, r :: rs =>
    (match G w r with | some s => [s] | none => []) ++ cmpWith G ws rs

/-- The per-index test of `classify_errors`. -/
def mismatchG (w r : String) : Option String :=
  if w ≠ r then
    some ("Word mismatch: " ++ apos ++ w ++ apos ++ " vs " ++ apos ++ r ++ apos)
  else none

theorem opStep_eq_insert (refT hypT : List String) (st : OpAcc) (i1 i2 j1 j2 : Nat) :
    opStep refT hypT st ⟨OpTag.insert, i1, i2, j1, j2⟩ =
      { st with inserts := st.inserts + (j2 - j1),
                insertEx := st.insertEx ++ [joinSp (sliceL hypT j1 j2)] } := rfl

theorem opStep_eq_delete (refT hypT : List String) (st : OpAcc) (i1 i2 j1 j2 : Nat) :
    opStep refT hypT st ⟨OpTag.delete, i1, i2, j1, j2⟩ =
      { st with deletes := st.deletes + (i2 - i1),
                deleteEx := st.deleteEx ++ [joinSp (sliceL refT i1 i2)] } := rfl

theorem opStep_eq_replace (refT hypT : List String) (st : OpAcc) (i1 i2 j1 j2 : Nat) :
    opStep refT hypT st ⟨OpTag.replace, i1, i2, j1, j2⟩ =
      { st with replaces := st.replaces + max (i2 - i1) (j2 - j1),
                replaceEx := st.replaceEx ++
                  [(joinSp (sliceL refT i1 i2), joinSp (sliceL hypT j1 j2))] } := rfl

theorem opStep_eq_equal (refT hypT : List String) (st : OpAcc) (i1 i2 j1 j2 : Nat) :
    opStep refT hypT st ⟨OpTag.equal, i1, i2, j1, j2⟩ = st := rfl

theorem foldl_opStep (refT hypT : List String) :
    ∀ (ops : List Opcode) (st : OpAcc),
      (ops.foldl (opStep refT hypT) st).inserts = st.inserts + insSum ops ∧
      (ops.foldl (opStep refT hypT) st).deletes = st.deletes + delSum ops ∧
      (ops.foldl (opStep refT hypT) st).replaces = st.replaces + repSum ops := by
  intro ops
  induction ops with
  | nil => intro st; simp [insSum, delSum, repSum]
  | cons o rest ih =>
    intro st
    simp only [List.foldl_cons]
    obtain ⟨h1, h2, h3⟩ := ih (opStep refT hypT st o)
    rcases o with ⟨tag, i1, i2, j1, j2⟩
    cases tag <;>
      simp only [opStep_eq_insert, opStep_eq_delete, opStep_eq_replace,
        opStep_eq_equal] at h1 h2 h3 ⊢ <;>
      simp [insSum, delSum, repSum, h1, h2, h3, List.filter_cons] <;>
      omega

theorem pyOr0_eq_getD (o : Option ℚ) : pyOr0 o = o.getD 0 := by
  rcases o with _ | v
  · rfl
  · unfold pyOr0
    by_cases h : v = 0 <;> simp [h]

/-- Claim C1: for every metric result set, non-negative time_spent and
edit_ops, `compute_points` returns exactly
`max(0, 10 + trunc(bleu*0.2) + trunc(bert*0.4) + trunc(sim*5)
- trunc(time_spent/10) - trunc(edit_ops*0.5))` with missing metrics
replaced by 0 and truncation toward zero; in particular the documented
example `{BLEU: 80, BERT_F1: 90, similarity: 0.95}`, `time_spent = 30`,
`edit_ops = 4` yields 61. -/
theorem claim_C1 :
    (∀ (s : Scores) (t : ℚ) (e : Nat), 0 ≤ t →
      compute_points s t e = specPoints s t e) ∧
    compute_points ⟨some 80, none, none, some 90, some (19 / 20)⟩ 30 4 = 61 := by
  constructor
  · intro s t e _
    unfold compute_points specPoints
    dsimp only
    rw [pyOr0_eq_getD, pyOr0_eq_getD, pyOr0_eq_getD]
    rw [max_def]
    split_ifs <;> omega
  · norm_num [compute_points, pyOr0, pyTrunc]

/-- Claim C3: `token_opcodes` returns `inserts = Σ (j2-j1)` over insert
opcodes, `deletes = Σ (i2-i1)` over delete opcodes,
`replaces = Σ max(i2-i1, j2-j1)` over replace opcodes, and
`edit_ops = inserts + deletes + replaces`, over the opcode sequence of
the aligned token sequences. -/
theorem claim_C3 (ref hyp : String) :
    (token_opcodes ref hyp).inserts = insSum (getOpcodes (pySplit ref) (pySplit hyp)) ∧
    (token_opcodes ref hyp).deletes = delSum (getOpcodes (pySplit ref) (pySplit hyp)) ∧
    (token_opcodes ref hyp).replaces = repSum (getOpcodes (pySplit ref) (pySplit hyp)) ∧
    (token_opcodes ref hyp).edit_ops =
      (token_opcodes ref hyp).inserts + (token_opcodes ref hyp).deletes +
        (token_opcodes ref hyp).replaces := by
  obtain ⟨h1, h2, h3⟩ := foldl_opStep (pySplit ref) (pySplit hyp)
    (getOpcodes (pySplit ref) (pySplit hyp)) ⟨0, 0, 0, [], [], []⟩
  unfold token_opcodes
  refine ⟨?_, ?_, ?_, rfl⟩ <;> simp [h1, h2, h3]

/-- Claim C8: the aligner is deterministic — `token_opcodes` on
identical reference and hypothesis texts returns identical results
(same counts, same example lists, same order). -/
theorem claim_C8 (ref1 hyp1 ref2 hyp2 : String) (h1 : ref1 = ref2) (h2 : hyp1 = hyp2) :
    token_opcodes ref1 hyp1 = token_opcodes ref2 hyp2 := by
  subst h1; subst h2; rfl

/-- Witness for C8 at concrete inputs. -/
theorem claim_C8_witness :
    token_opcodes ("a b") ("a c") = token_opcodes ("a b") ("a c") :=
  claim_C8 ("a b") ("a c") ("a b") ("a c") rfl rfl

theorem pyTrunc_mono {q r : ℚ} (h : q ≤ r) : pyTrunc q ≤ pyTrunc r := by
  unfold pyTrunc
  by_cases h1 : 0 ≤ q
  · rw [if_pos h1, if_pos (le_trans h1 h)]
    exact Int.floor_le_floor h
  · rw [if_neg h1]
    by_cases h2 : 0 ≤ r
    · rw [if_pos h2]
      have hq : q ≤ 0 := le_of_not_le h1
      calc ⌈q⌉ ≤ 0 := Int.ceil_le.mpr (by exact_mod_cast hq)
        _ ≤ ⌊r⌋ := Int.floor_nonneg.mpr h2
    · rw [if_neg h2]
      exact Int.ceil_le_ceil h

theorem cmpWith_nil_right (G : String → String → Option String) (ws : List String) :
    cmpWith G ws [] = [] := by
  cases ws <;> rfl

theorem filterMap_enumFrom_eq_cmpWith (G : String → String → Option String)
    (rw : List String) :
    ∀ (ws : List String) (n : Nat),
      (List.enumFrom n ws).filterMap
        (fun p => match rw.get? p.1 with | some r => G p.2 r | none => none) =
      cmpWith G ws (rw.drop n) := by
  intro ws
  induction ws with
  | nil => intro n; simp [cmpWith_nil_right, cmpWith]
  | cons w ws ih =>
    intro n
    rw [List.enumFrom_cons]
    rcases hr : rw.get? n with _ | r
    · have hlen : rw.length ≤ n := List.get?_eq_none.mp hr
      have hd1 : rw.drop n = [] := List.drop_eq_nil_of_le hlen
      have hd2 : rw.drop (n + 1) = [] := List.drop_eq_nil_of_le (by omega)
      simp only [List.filterMap_cons, hr]
      rw [ih (n + 1), hd1, hd2, cmpWith_nil_right, cmpWith_nil_right]
    · have hlt : n < rw.length := by
        by_contra hc
        rw [List.get?_eq_none.mpr (by omega)] at hr
        exact Option.noConfusion hr
      have hd1 : rw.drop n = rw[n] :: rw.drop (n + 1) := List.drop_eq_getElem_cons hlt
      have hget : rw[n] = r := by
        have := List.get?_eq_getElem? rw n
        rw [hr] at this
        have h2 := (List.getElem?_eq_some.mp this.symm)
        obtain ⟨hh, hv⟩ := h2
        exact hv
      simp only [List.filterMap_cons, hr]
      rw [hd1, hget]
      show _ = cmpWith G (w :: ws) (r :: rw.drop (n + 1))
      unfold cmpWith
      rcases hG : G w r with _ | sres
      · simp only [hG]
        rw [ih (n + 1)]
        simp
      · simp only [hG]
        rw [ih (n + 1)]
        rfl

theorem range_min_filterMap_eq_cmpWith (G : String → String → Option String) :
    ∀ (hw rw : List String),
      (List.range (min hw.length rw.length)).filterMap (fun i =>
        match hw.get? i, rw.get? i with
        | some w, some r => G w r
        | _, _ => none) = cmpWith G hw rw := by
  intro hw
  induction hw with
  | nil => intro rw; simp [cmpWith]
  | cons w ws ih =>
    intro rw
    rcases rw with _ | ⟨r, rs⟩
    · simp [cmpWith]
    · have hmin : min (w :: ws).length (r :: rs).length = min ws.length rs.length + 1 := by
        simp [Nat.succ_min_succ]
      rw [hmin, List.range_succ_eq_map, List.filterMap_cons, List.filterMap_map]
      have hcomp : ((fun i =>
          match (w :: ws).get? i, (r :: rs).get? i with
          | some w2, some r2 => G w2 r2
          | _, _ => none) ∘ (fun i => i + 1)) = (fun i =>
          match ws.get? i, rs.get? i with
          | some w2, some r2 => G w2 r2
          | _, _ => none) := by
        funext i
        simp [Function.comp]
      rw [hcomp, ih rs]
      rcases hG : G w r with _ | sres <;>
        simp [hG, cmpWith, List.get?_cons_zero]

theorem classify_eq_cmpWith (hy re : String) :
    classify_errors hy re = cmpWith mismatchG (pySplit hy) (pySplit re) := by
  have h := filterMap_enumFrom_eq_cmpWith mismatchG (pySplit re) (pySplit hy) 0
  rw [List.drop_zero] at h
  unfold classify_errors
  dsimp only
  rw [← h]
  rfl

/-- Claim C10: `classify_errors` compares tokens purely by position:
it returns exactly one mismatch message for each index below both
token-sequence lengths where the tokens differ, in increasing index
order, and indices beyond either length produce nothing. -/
theorem claim_C10 (hyp ref : String) :
    classify_errors hyp ref = specMismatches hyp ref := by
  rw [classify_eq_cmpWith]
  unfold specMismatches
  dsimp only
  rw [← range_min_filterMap_eq_cmpWith mismatchG (pySplit hyp) (pySplit ref)]
  rfl

/-- Claim C4: `compute_points` is monotone — raising any one metric
value (BLEU, BERT_F1 or similarity) never lowers the points, raising
`time_spent` or `edit_ops` never raises them, and the result is never
negative. -/
theorem claim_C4 :
    (∀ (s : Scores) (t : ℚ) (e : Nat) (v w : ℚ), v ≤ w →
      compute_points { s with bleu := some v } t e ≤
        compute_points { s with bleu := some w } t e) ∧
    (∀ (s : Scores) (t : ℚ) (e : Nat) (v w : ℚ), v ≤ w →
      compute_points { s with bert := some v } t e ≤
        compute_points { s with bert := some w } t e) ∧
    (∀ (s : Scores) (t : ℚ) (e : Nat) (v w : ℚ), v ≤ w →
      compute_points { s with similarity := some v } t e ≤
        compute_points { s with similarity := some w } t e) ∧
    (∀ (s : Scores) (e : Nat) (t u : ℚ), t ≤ u →
      compute_points s u e ≤ compute_points s t e) ∧
    (∀ (s : Scores) (t : ℚ) (e f : Nat), e ≤ f →
      compute_points s t f ≤ compute_points s t e) ∧
    (∀ (s : Scores) (t : ℚ) (e : Nat), 0 ≤ compute_points s t e) := by
  refine ⟨?_, ?_, ?_, ?_, ?_, ?_⟩
  · intro s t e v w hvw
    have hm : pyTrunc (v * (2 / 10)) ≤ pyTrunc (w * (2 / 10)) :=
      pyTrunc_mono (mul_le_mul_of_nonneg_right hvw (by norm_num))
    unfold compute_points
    dsimp only
    simp only [pyOr0_eq_getD, Option.getD_some]
    split_ifs <;> omega
  · intro s t e v w hvw
    have hm : pyTrunc (v * (4 / 10)) ≤ pyTrunc (w * (4 / 10)) :=
      pyTrunc_mono (mul_le_mul_of_nonneg_right hvw (by norm_num))
    unfold compute_points
    dsimp only
    simp only [pyOr0_eq_getD, Option.getD_some]
    split_ifs <;> omega
  · intro s t e v w hvw
    have hm : pyTrunc (v * 5) ≤ pyTrunc (w * 5) :=
      pyTrunc_mono (mul_le_mul_of_nonneg_right hvw (by norm_num))
    unfold compute_points
    dsimp only
    simp only [pyOr0_eq_getD, Option.getD_some]
    split_ifs <;> omega
  · intro s e t u htu
    have hm : pyTrunc (t / 10) ≤ pyTrunc (u / 10) :=
      pyTrunc_mono (by linarith)
    unfold compute_points
    dsimp only
    split_ifs <;> omega
  · intro s t e f hef
    have hc : (e : ℚ) ≤ (f : ℚ) := by exact_mod_cast hef
    have hm : pyTrunc ((e : ℚ) * (5 / 10)) ≤ pyTrunc ((f : ℚ) * (5 / 10)) :=
      pyTrunc_mono (mul_le_mul_of_nonneg_right hc (by norm_num))
    unfold compute_points
    dsimp only
    split_ifs <;> omega
  · intro s t e
    unfold compute_points
    dsimp only
    split_ifs <;> omega

/-- Witness for C4 at concrete inputs. -/
theorem claim_C4_witness :
    compute_points { (⟨none, none, none, none, none⟩ : Scores) with bleu := some 1 } 0 0 ≤
      compute_points { (⟨none, none, none, none, none⟩ : Scores) with bleu := some 2 } 0 0 ∧
    compute_points (⟨none, none, none, none, none⟩ : Scores) 5 0 ≤
      compute_points (⟨none, none, none, none, none⟩ : Scores) 0 0 ∧
    compute_points (⟨none, none, none, none, none⟩ : Scores) 0 3 ≤
      compute_points (⟨none, none, none, none, none⟩ : Scores) 0 2 ∧
    0 ≤ compute_points (⟨none, none, none, none, none⟩ : Scores) 0 0 :=
  ⟨claim_C4.1 ⟨none, none, none, none, none⟩ 0 0 1 2 (by norm_num),
   claim_C4.2.2.2.1 ⟨none, none, none, none, none⟩ 0 0 5 (by norm_num),
   claim_C4.2.2.2.2.1 ⟨none, none, none, none, none⟩ 0 2 3 (by norm_num),
   claim_C4.2.2.2.2.2 ⟨none, none, none, none, none⟩ 0 0⟩

theorem submit_eval (env : MainEnv) (sub : Submission) :
    submit_translation env sub =
      match env.calcMetrics sub.student_translation sub.reference with
      | Except.ok _ => Except.error PyExc.nameError
      | Except.error e => Except.error e := by
  have hmem : ¬ (("Levenshtein" : String) ∈ mainModuleNames) := by decide
  unfold submit_translation
  rcases hc : env.calcMetrics sub.student_translation sub.reference with e | m <;>
    simp only [hc]
  · rfl
  · rw [if_neg hmem]
    rfl

/-- Claim C9: every `/submit/` call fails before building the result
or appending to submissions.csv, and — whenever the preceding
`calculate_metrics` call returns normally — the failure is precisely
the NameError on the unimported name `Levenshtein`. -/
theorem claim_C9 (env : MainEnv) (sub : Submission) :
    (∃ e, submit_translation env sub = Except.error e) ∧
    submitCsvAppend env sub = [] ∧
    ((∃ m, env.calcMetrics sub.student_translation sub.reference = Except.ok m) →
      submit_translation env sub = Except.error PyExc.nameError) := by
  have hev := submit_eval env sub
  rcases hc : env.calcMetrics sub.student_translation sub.reference with e | m <;>
    rw [hc] at hev
  · exact ⟨⟨e, hev⟩, by unfold submitCsvAppend; rw [hev],
      fun ⟨m, hm⟩ => absurd hm (by simp)⟩
  · exact ⟨⟨PyExc.nameError, hev⟩, by unfold submitCsvAppend; rw [hev], fun _ => hev⟩

/-- Witness for C9 at a concrete environment and submission. -/
theorem claim_C9_witness :
    (∃ e, submit_translation quietEnv ⟨"s", "r", "m", "t"⟩ = Except.error e) ∧
    submitCsvAppend quietEnv ⟨"s", "r", "m", "t"⟩ = [] ∧
    ((∃ m, quietEnv.calcMetrics "t" "r" = Except.ok m) →
      submit_translation quietEnv ⟨"s", "r", "m", "t"⟩ = Except.error PyExc.nameError) :=
  claim_C9 quietEnv ⟨"s", "r", "m", "t"⟩

/-- Counterexample to C5 as stated: with every call succeeding, chrF
is a number; removing only the library that backs BLEU (sacrebleu) also
turns chrF to None, so a metric other than the one whose provider
disappeared is affected. -/
theorem claim_C5_counterexample :
    (compute_scores allOkP ("a") ("b")).chrf = some 50 ∧
    (compute_scores noSacreP ("a") ("b")).chrf = none := by
  constructor
  · show (if ("b" : String) ≠ "" ∧ allOkP.sacrebleuAvail = true then
        tryRound4 (allOkP.chrfCall ("a") ("b")) else none) = some 50
    rw [if_pos (by constructor <;> simp [allOkP])]
    show some (pyRound4 50) = some 50
    norm_num [pyRound4, roundHalfEven, round_eq]
  · show (if ("b" : String) ≠ "" ∧ noSacreP.sacrebleuAvail = true then
        tryRound4 (noSacreP.chrfCall ("a") ("b")) else none) = none
    rw [if_neg (by simp [noSacreP, allOkP])]

/-- Claim C5 amended: exceptions never propagate and a throwing call
affects only its own metric; library absence is isolated per library,
not per metric — absent sacrebleu yields None for exactly BLEU, chrF
and TER, absent bert_score for exactly BERT_F1 — and the similarity
fallback is always a defined number. -/
theorem claim_C5_amended :
    (∀ (P : Providers) (f g : String → String → Except Unit ℚ) (hyp ref : String),
      (compute_scores { P with bleuCall := f } hyp ref).chrf =
        (compute_scores { P with bleuCall := g } hyp ref).chrf ∧
      (compute_scores { P with bleuCall := f } hyp ref).ter =
        (compute_scores { P with bleuCall := g } hyp ref).ter ∧
      (compute_scores { P with bleuCall := f } hyp ref).bert =
        (compute_scores { P with bleuCall := g } hyp ref).bert ∧
      (compute_scores { P with bleuCall := f } hyp ref).similarity =
        (compute_scores { P with bleuCall := g } hyp ref).similarity) ∧
    (∀ (P : Providers) (f g : String → String → Except Unit ℚ) (hyp ref : String),
      (compute_scores { P with chrfCall := f } hyp ref).bleu =
        (compute_scores { P with chrfCall := g } hyp ref).bleu ∧
      (compute_scores { P with chrfCall := f } hyp ref).ter =
        (compute_scores { P with chrfCall := g } hyp ref).ter ∧
      (compute_scores { P with chrfCall := f } hyp ref).bert =
        (compute_scores { P with chrfCall := g } hyp ref).bert ∧
      (compute_scores { P with chrfCall := f } hyp ref).similarity =
        (compute_scores { P with chrfCall := g } hyp ref).similarity) ∧
    (∀ (P : Providers) (f g : String → String → Except Unit ℚ) (hyp ref : String),
      (compute_scores { P with terCall := f } hyp ref).bleu =
        (compute_scores { P with terCall := g } hyp ref).bleu ∧
      (compute_scores { P with terCall := f } hyp ref).chrf =
        (compute_scores { P with terCall := g } hyp ref).chrf ∧
      (compute_scores { P with terCall := f } hyp ref).bert =
        (compute_scores { P with terCall := g } hyp ref).bert ∧
      (compute_scores { P with terCall := f } hyp ref).similarity =
        (compute_scores { P with terCall := g } hyp ref).similarity) ∧
    (∀ (P : Providers) (f g : String → String → Except Unit ℚ) (hyp ref : String),
      (compute_scores { P with bertCall := f } hyp ref).bleu =
        (compute_scores { P with bertCall := g } hyp ref).bleu ∧
      (compute_scores { P with bertCall := f } hyp ref).chrf =
        (compute_scores { P with bertCall := g } hyp ref).chrf ∧
      (compute_scores { P with bertCall := f } hyp ref).ter =
        (compute_scores { P with bertCall := g } hyp ref).ter ∧
      (compute_scores { P with bertCall := f } hyp ref).similarity =
        (compute_scores { P with bertCall := g } hyp ref).similarity) ∧
    (∀ (P : Providers) (hyp ref : String),
      (compute_scores { P with sacrebleuAvail := false } hyp ref).bleu = none ∧
      (compute_scores { P with sacrebleuAvail := false } hyp ref).chrf = none ∧
      (compute_scores { P with sacrebleuAvail := false } hyp ref).ter = none ∧
      (compute_scores { P with sacrebleuAvail := false } hyp ref).bert =
        (compute_scores P hyp ref).bert ∧
      (compute_scores { P with sacrebleuAvail := false } hyp ref).similarity =
        (compute_scores P hyp ref).similarity) ∧
    (∀ (P : Providers) (hyp ref : String),
      (compute_scores { P with bertAvail := false } hyp ref).bert = none ∧
      (compute_scores { P with bertAvail := false } hyp ref).bleu =
        (compute_scores P hyp ref).bleu ∧
      (compute_scores { P with bertAvail := false } hyp ref).chrf =
        (compute_scores P hyp ref).chrf ∧
      (compute_scores { P with bertAvail := false } hyp ref).ter =
        (compute_scores P hyp ref).ter ∧
      (compute_scores { P with bertAvail := false } hyp ref).similarity =
        (compute_scores P hyp ref).similarity) ∧
    (∀ (P : Providers) (hyp ref : String), ∃ q,
      (compute_scores P hyp ref).similarity = some q) := by
  refine ⟨?_, ?_, ?_, ?_, ?_, ?_, ?_⟩
  · intro P f g hyp ref
    exact ⟨rfl, rfl, rfl, rfl⟩
  · intro P f g hyp ref
    exact ⟨rfl, rfl, rfl, rfl⟩
  · intro P f g hyp ref
    exact ⟨rfl, rfl, rfl, rfl⟩
  · intro P f g hyp ref
    exact ⟨rfl, rfl, rfl, rfl⟩
  · intro P hyp ref
    refine ⟨?_, ?_, ?_, rfl, rfl⟩ <;> simp [compute_scores]
  · intro P hyp ref
    refine ⟨?_, rfl, rfl, rfl, rfl⟩
    simp [compute_scores]
  · intro P hyp ref
    exact ⟨pyRound4 (simRatioQ ref.data hyp.data), rfl⟩

/-- Witness for C1 at the documented example. -/
theorem claim_C1_witness :
    compute_points ⟨some 80, none, none, some 90, some (19 / 20)⟩ 30 4 =
      specPoints ⟨some 80, none, none, some 90, some (19 / 20)⟩ 30 4 ∧
    compute_points ⟨some 80, none, none, some 90, some (19 / 20)⟩ 30 4 = 61 :=
  ⟨claim_C1.1 ⟨some 80, none, none, some 90, some (19 / 20)⟩ 30 4 (by norm_num),
   claim_C1.2⟩

theorem compR_symm {r r2 : SMRect} (h : CompR r r2) : CompR r2 r := Or.symm h

theorem subR_compR {n r x : SMRect} (hs : SubR n r) (hc : CompR r x) : CompR n x := by
  unfold SubR at hs
  rcases hc with ⟨h1, h2⟩ | ⟨h1, h2⟩
  · exact Or.inl ⟨by omega, by omega⟩
  · exact Or.inr ⟨by omega, by omega⟩

theorem pairwise_sub_replace {r : SMRect} {L : List SMRect} (news : List SMRect)
    (hp : List.Pairwise CompR (r :: L))
    (hsub : ∀ x ∈ news, SubR x r)
    (hnews : List.Pairwise CompR news) :
    List.Pairwise CompR (news ++ L) := by
  rcases List.pairwise_cons.mp hp with ⟨hrL, hL⟩
  rw [List.pairwise_append]
  exact ⟨hnews, hL, fun x hx y hy => subR_compR (hsub x hx) (hrL y hy)⟩

/-- What the queue loop guarantees of every recorded block. -/
def AccOk {α : Type} (a b : List α) (la lb : Nat) (m : SMMatch) : Prop :=
  1 ≤ m.size ∧ m.i + m.size ≤ la ∧ m.j + m.size ≤ lb ∧ BlockValid a b m

theorem smFLM_sized {α : Type} [DecidableEq α] (a b : List α) (bjunk : α → Bool)
    (alo ahi blo bhi mi mj ms : Nat)
    (hflm : smFindLongestMatch a b bjunk alo ahi blo bhi = ⟨mi, mj, ms⟩)
    (hm : ms ≠ 0) :
    alo ≤ mi ∧ blo ≤ mj ∧ mi + ms ≤ ahi ∧ mj + ms ≤ bhi ∧
      BlockValid a b ⟨mi, mj, ms⟩ := by
  have hok := smFLM_ok a b bjunk alo ahi blo bhi
  rw [hflm] at hok
  dsimp only at hok
  rcases hok with ⟨hz, _, _⟩ | ⟨h1, h2, h3, h4, h5, h6⟩
  · exact absurd hz hm
  · exact ⟨h2, h3, h4, h5, h6⟩

theorem inv_step {α : Type} (a b : List α) (la lb : Nat)
    (r : SMRect) (rest : List SMRect) (acc : List SMMatch) (mi mj ms : Nat)
    (newq : List SMRect)
    (hs1 : r.alo ≤ mi) (hs2 : r.blo ≤ mj) (hs3 : mi + ms ≤ r.ahi)
    (hs4 : mj + ms ≤ r.bhi) (hms : 1 ≤ ms) (hsv : BlockValid a b ⟨mi, mj, ms⟩)
    (hq : ∀ x ∈ r :: rest, x.ahi ≤ la ∧ x.bhi ≤ lb)
    (hacc : ∀ m ∈ acc, AccOk a b la lb m)
    (hp : List.Pairwise CompR ((r :: rest) ++ acc.map rectOfBlock))
    (hnewsub : ∀ x ∈ newq, SubR x r)
    (hnews : List.Pairwise CompR (newq ++ [rectOfBlock ⟨mi, mj, ms⟩])) :
    (∀ x ∈ newq ++ rest, x.ahi ≤ la ∧ x.bhi ≤ lb) ∧
    (∀ m ∈ acc ++ [(⟨mi, mj, ms⟩ : SMMatch)], AccOk a b la lb m) ∧
    List.Pairwise CompR ((newq ++ rest) ++ (acc ++ [(⟨mi, mj, ms⟩ : SMMatch)]).map rectOfBlock) := by
  have hrb := hq r (by simp)
  refine ⟨?_, ?_, ?_⟩
  · intro x hx
    rcases List.mem_append.mp hx with hx | hx
    · have hsx := hnewsub x hx
      unfold SubR at hsx
      exact ⟨by omega, by omega⟩
    · exact hq x (by simp [hx])
  · intro m hm2
    rcases List.mem_append.mp hm2 with hm2 | hm2
    · exact hacc m hm2
    · have : m = ⟨mi, mj, ms⟩ := by simpa using hm2
      subst this
      refine ⟨hms, ?_, ?_, hsv⟩ <;> dsimp only <;> omega
  · have hsubM : SubR (rectOfBlock ⟨mi, mj, ms⟩) r := by
      unfold SubR rectOfBlock
      dsimp only
      omega
    have hmain := pairwise_sub_replace (newq ++ [rectOfBlock ⟨mi, mj, ms⟩]) hp
      (by intro x hx
          rcases List.mem_append.mp hx with hx | hx
          · exact hnewsub x hx
          · have : x = rectOfBlock ⟨mi, mj, ms⟩ := by simpa using hx
            subst this
            exact hsubM)
      hnews
    refine hmain.perm ?_ (fun {_ _} h => compR_symm h)
    rw [List.map_append]
    simp only [List.map_cons, List.map_nil, List.append_assoc]
    refine List.Perm.append_left newq ?_
    have hone := (List.perm_append_singleton (rectOfBlock ⟨mi, mj, ms⟩)
      (rest ++ acc.map rectOfBlock)).symm
    simpa [List.append_assoc] using hone

theorem pairwise_compR_single (r : SMRect) : List.Pairwise CompR [r] :=
  List.Pairwise.cons (by intro y hy; exact absurd hy (List.not_mem_nil y))
    List.Pairwise.nil

theorem compR_of_bef_left {x y : SMRect} (h : Bef x y) : CompR x y := Or.inl h

theorem compR_of_bef_right {x y : SMRect} (h : Bef y x) : CompR x y := Or.inr h

theorem smBlocksLoop_inv {α : Type} [DecidableEq α] (a b : List α) (bjunk : α → Bool)
    (la lb : Nat) :
    ∀ (queue : List SMRect) (acc : List SMMatch),
      (∀ r ∈ queue, r.ahi ≤ la ∧ r.bhi ≤ lb) →
      (∀ m ∈ acc, AccOk a b la lb m) →
      List.Pairwise CompR (queue ++ acc.map rectOfBlock) →
      (∀ m ∈ smBlocksLoop a b bjunk queue acc, AccOk a b la lb m) ∧
      List.Pairwise CompR ((smBlocksLoop a b bjunk queue acc).map rectOfBlock) := by
  intro queue acc
  induction queue, acc using smBlocksLoop.induct a b bjunk with
  | case1 acc =>
    intro _ hacc hp
    rw [smBlocksLoop]
    exact ⟨hacc, by simpa using hp⟩
  | case2 r rest acc mi mj heq ih =>
    intro hq hacc hp
    rw [smBlocksLoop, heq]
    dsimp only
    rw [dif_pos rfl]
    exact ih (fun x hx => hq x (by simp [hx])) hacc hp.of_cons
  | case3 r rest acc mi mj ms heq hm h1 h2 ih =>
    intro hq hacc hp
    obtain ⟨hs1, hs2, hs3, hs4, hsv⟩ := smFLM_sized a b bjunk _ _ _ _ _ _ _ heq hm
    have hstep := inv_step a b la lb r rest acc mi mj ms
      [⟨mi + ms, r.ahi, mj + ms, r.bhi⟩, ⟨r.alo, mi, r.blo, mj⟩]
      hs1 hs2 hs3 hs4 (by omega) hsv hq hacc hp
      (List.forall_mem_cons.mpr ⟨by unfold SubR; dsimp only; omega,
        List.forall_mem_cons.mpr ⟨by unfold SubR; dsimp only; omega,
          fun x hx => absurd hx (List.not_mem_nil x)⟩⟩)
      (by refine List.Pairwise.cons ?_ (List.Pairwise.cons ?_ (pairwise_compR_single _))
          · refine List.forall_mem_cons.mpr ⟨?_,
              List.forall_mem_cons.mpr ⟨?_,
                fun x hx => absurd hx (List.not_mem_nil x)⟩⟩
            · exact compR_of_bef_right (by unfold Bef; dsimp only; omega)
            · exact compR_of_bef_right (by unfold Bef rectOfBlock; dsimp only; omega)
          · refine List.forall_mem_cons.mpr ⟨?_,
              fun x hx => absurd hx (List.not_mem_nil x)⟩
            exact compR_of_bef_left (by unfold Bef rectOfBlock; dsimp only; omega))
    rw [smBlocksLoop, heq]
    dsimp only
    rw [dif_neg hm, if_pos h1, if_pos h2]
    exact ih hstep.1 hstep.2.1 hstep.2.2
  | case4 r rest acc mi mj ms heq hm h1 h2 ih =>
    intro hq hacc hp
    obtain ⟨hs1, hs2, hs3, hs4, hsv⟩ := smFLM_sized a b bjunk _ _ _ _ _ _ _ heq hm
    have hstep := inv_step a b la lb r rest acc mi mj ms
      [⟨r.alo, mi, r.blo, mj⟩]
      hs1 hs2 hs3 hs4 (by omega) hsv hq hacc hp
      (List.forall_mem_cons.mpr ⟨by unfold SubR; dsimp only; omega,
        fun x hx => absurd hx (List.not_mem_nil x)⟩)
      (by refine List.Pairwise.cons ?_ (pairwise_compR_single _)
          refine List.forall_mem_cons.mpr ⟨?_,
            fun x hx => absurd hx (List.not_mem_nil x)⟩
          exact compR_of_bef_left (by unfold Bef rectOfBlock; dsimp only; omega))
    rw [smBlocksLoop, heq]
    dsimp only
    rw [dif_neg hm, if_pos h1, if_neg h2]
    exact ih hstep.1 hstep.2.1 hstep.2.2
  | case5 r rest acc mi mj ms heq hm h1 h2 ih =>
    intro hq hacc hp
    obtain ⟨hs1, hs2, hs3, hs4, hsv⟩ := smFLM_sized a b bjunk _ _ _ _ _ _ _ heq hm
    have hstep := inv_step a b la lb r rest acc mi mj ms
      [⟨mi + ms, r.ahi, mj + ms, r.bhi⟩]
      hs1 hs2 hs3 hs4 (by omega) hsv hq hacc hp
      (List.forall_mem_cons.mpr ⟨by unfold SubR; dsimp only; omega,
        fun x hx => absurd hx (List.not_mem_nil x)⟩)
      (by refine List.Pairwise.cons ?_ (pairwise_compR_single _)
          refine List.forall_mem_cons.mpr ⟨?_,
            fun x hx => absurd hx (List.not_mem_nil x)⟩
          exact compR_of_bef_right (by unfold Bef rectOfBlock; dsimp only; omega))
    rw [smBlocksLoop, heq]
    dsimp only
    rw [dif_neg hm, if_neg h1, if_pos h2]
    exact ih hstep.1 hstep.2.1 hstep.2.2
  | case6 r rest acc mi mj ms heq hm h1 h2 ih =>
    intro hq hacc hp
    obtain ⟨hs1, hs2, hs3, hs4, hsv⟩ := smFLM_sized a b bjunk _ _ _ _ _ _ _ heq hm
    have hstep := inv_step a b la lb r rest acc mi mj ms []
      hs1 hs2 hs3 hs4 (by omega) hsv hq hacc hp
      (fun x hx => absurd hx (List.not_mem_nil x))
      (pairwise_compR_single _)
    rw [smBlocksLoop, heq]
    dsimp only
    rw [dif_neg hm, if_neg h1, if_neg h2]
    exact ih hstep.1 hstep.2.1 hstep.2.2

/-- Consecutive-block staircase relation. -/
def stair (m m2 : SMMatch) : Prop := m.i + m.size ≤ m2.i ∧ m.j + m.size ≤ m2.j

theorem sorted_comp_stair (l : List SMMatch)
    (hsort : List.Sorted blockLE l)
    (hcomp : List.Pairwise CompR (l.map rectOfBlock))
    (hsz : ∀ m ∈ l, 1 ≤ m.size) :
    List.Pairwise stair l := by
  have hcomp2 : List.Pairwise (fun m m2 => CompR (rectOfBlock m) (rectOfBlock m2)) l :=
    List.pairwise_map.mp hcomp
  refine (hsort.and hcomp2).imp_of_mem ?_
  intro m m2 hm hm2 hmm
  obtain ⟨hle, hcr⟩ := hmm
  rcases hcr with ⟨hb1, hb2⟩ | ⟨hb1, hb2⟩
  · unfold rectOfBlock at hb1 hb2
    dsimp only at hb1 hb2
    exact ⟨hb1, hb2⟩
  · exfalso
    have hs2 := hsz m2 hm2
    unfold blockLE at hle
    unfold rectOfBlock at hb1 hb2
    dsimp only at hb1 hb2
    omega

theorem walkTo_mono {L : List SMMatch} {i j i2 j2 : Nat} {e : Nat × Nat}
    (h : WalkTo i j L e) (h1 : i2 ≤ i) (h2 : j2 ≤ j) :
    WalkTo i2 j2 L e ∨ (L = [] ∧ e = (i, j)) := by
  cases L with
  | nil => exact Or.inr ⟨rfl, h⟩
  | cons m rest =>
    obtain ⟨ha, hb, hc⟩ := h
    exact Or.inl ⟨by omega, by omega, hc⟩

theorem collapseAdj_spec {α : Type} (a b : List α) (la lb : Nat) :
    ∀ (l : List SMMatch) (cur : SMMatch),
      List.Pairwise stair l →
      (∀ m ∈ l, cur.i + cur.size ≤ m.i ∧ cur.j + cur.size ≤ m.j) →
      (∀ m ∈ l, 1 ≤ m.size ∧ m.i + m.size ≤ la ∧ m.j + m.size ≤ lb ∧ BlockValid a b m) →
      cur.i + cur.size ≤ la → cur.j + cur.size ≤ lb → BlockValid a b cur →
      WalkTo cur.i cur.j (collapseAdj cur l ++ [⟨la, lb, 0⟩]) (la, lb) ∧
      (∀ m ∈ collapseAdj cur l,
        1 ≤ m.size ∧ m.i + m.size ≤ la ∧ m.j + m.size ≤ lb ∧ BlockValid a b m) := by
  intro l
  induction l with
  | nil =>
    intro cur _ _ _ hba hbb hv
    unfold collapseAdj
    by_cases hz : cur.size ≠ 0
    · rw [if_pos hz]
      refine ⟨⟨le_refl _, le_refl _, ?_, ?_, ?_⟩, ?_⟩
      · dsimp only; omega
      · dsimp only; omega
      · show WalkTo (la + 0) (lb + 0) [] (la, lb)
        simp [WalkTo]
      · intro m hm
        have : m = cur := by simpa using hm
        subst this
        exact ⟨by omega, hba, hbb, hv⟩
    · rw [if_neg hz]
      push_neg at hz
      refine ⟨⟨?_, ?_, ?_⟩, ?_⟩
      · dsimp only; omega
      · dsimp only; omega
      · show WalkTo (la + 0) (lb + 0) [] (la, lb)
        simp [WalkTo]
      · intro m hm; simp at hm
  | cons m rest ih =>
    intro cur hst hcur hprops hba hbb hv
    have hm0 := hcur m (by simp)
    have hp0 := hprops m (by simp)
    have hstrest : List.Pairwise stair rest := hst.of_cons
    have hstm : ∀ m2 ∈ rest, stair m m2 := (List.pairwise_cons.mp hst).1
    unfold collapseAdj
    by_cases hadj : cur.i + cur.size = m.i ∧ cur.j + cur.size = m.j
    · rw [if_pos hadj]
      have hnewv : BlockValid a b ⟨cur.i, cur.j, cur.size + m.size⟩ := by
        intro t ht
        dsimp only at ht ⊢
        by_cases htc : t < cur.size
        · exact hv t htc
        · obtain ⟨x, hx1, hx2⟩ := hp0.2.2.2 (t - cur.size) (by omega)
          refine ⟨x, ?_, ?_⟩
          · have he : m.i + (t - cur.size) = cur.i + t := by omega
            rwa [he] at hx1
          · have he : m.j + (t - cur.size) = cur.j + t := by omega
            rwa [he] at hx2
      have := ih ⟨cur.i, cur.j, cur.size + m.size⟩ hstrest
        (by intro m2 hm2
            have hs := hstm m2 hm2
            unfold stair at hs
            dsimp only
            constructor <;> omega)
        (fun m2 hm2 => hprops m2 (by simp [hm2]))
        (by dsimp only; omega) (by dsimp only; omega) hnewv
      exact this
    · rw [if_neg hadj]
      have hrec := ih m hstrest
        (by intro m2 hm2
            have hs := hstm m2 hm2
            unfold stair at hs
            exact hs)
        (fun m2 hm2 => hprops m2 (by simp [hm2]))
        hp0.2.1 hp0.2.2.1 hp0.2.2.2
      by_cases hz : cur.size ≠ 0
      · rw [if_pos hz]
        refine ⟨⟨le_refl _, le_refl _, ?_⟩, ?_⟩
        · rcases walkTo_mono hrec.1 hm0.1 hm0.2 with hw | ⟨hnil, _⟩
          · exact hw
          · exact absurd hnil (by simp)
        · intro m2 hm2
          rcases List.mem_append.mp hm2 with hm2 | hm2
          · have : m2 = cur := by simpa using hm2
            subst this
            exact ⟨by omega, hba, hbb, hv⟩
          · exact hrec.2 m2 hm2
      · rw [if_neg hz]
        push_neg at hz
        refine ⟨?_, ?_⟩
        · simp only [List.nil_append]
          rcases @walkTo_mono _ _ _ cur.i cur.j _ hrec.1 (by omega) (by omega) with
            hw | ⟨hnil, _⟩
          · exact hw
          · exact absurd hnil (by simp)
        · intro m2 hm2
          simp only [List.nil_append] at hm2
          exact hrec.2 m2 hm2

theorem getMatchingBlocks_spec {α : Type} [DecidableEq α] (a b : List α) :
    WalkTo 0 0 (getMatchingBlocks a b) (a.length, b.length) ∧
    (∀ m ∈ getMatchingBlocks a b,
      m.i + m.size ≤ a.length ∧ m.j + m.size ≤ b.length ∧ BlockValid a b m) := by
  have hloop := smBlocksLoop_inv a b noJunk a.length b.length
    [⟨0, a.length, 0, b.length⟩] []
    (by intro r hr
        have : r = ⟨0, a.length, 0, b.length⟩ := by simpa using hr
        subst this
        exact ⟨le_refl _, le_refl _⟩)
    (by intro m hm; simp at hm)
    (by simpa using pairwise_compR_single ⟨0, a.length, 0, b.length⟩)
  have hperm : (List.insertionSort blockLE
      (smBlocksLoop a b noJunk [⟨0, a.length, 0, b.length⟩] [])).Perm
      (smBlocksLoop a b noJunk [⟨0, a.length, 0, b.length⟩] []) :=
    List.perm_insertionSort blockLE _
  have hacc : ∀ m ∈ List.insertionSort blockLE
      (smBlocksLoop a b noJunk [⟨0, a.length, 0, b.length⟩] []),
      AccOk a b a.length b.length m :=
    fun m hm => hloop.1 m (hperm.mem_iff.mp hm)
  have hcomp : List.Pairwise CompR ((List.insertionSort blockLE
      (smBlocksLoop a b noJunk [⟨0, a.length, 0, b.length⟩] [])).map rectOfBlock) := by
    refine hloop.2.perm ?_ (fun {_ _} h => compR_symm h)
    exact (hperm.map rectOfBlock).symm
  have hsort := List.sorted_insertionSort blockLE
    (smBlocksLoop a b noJunk [⟨0, a.length, 0, b.length⟩] [])
  have hstair := sorted_comp_stair _ hsort hcomp (fun m hm => (hacc m hm).1)
  have hcoll := collapseAdj_spec a b a.length b.length
    (List.insertionSort blockLE
      (smBlocksLoop a b noJunk [⟨0, a.length, 0, b.length⟩] []))
    ⟨0, 0, 0⟩ hstair
    (by intro m hm; dsimp only; omega)
    (fun m hm => hacc m hm)
    (by dsimp only; omega)
    (by dsimp only; omega)
    (by intro t ht; dsimp only at ht; omega)
  constructor
  · exact hcoll.1
  · intro m hm
    unfold getMatchingBlocks at hm
    rcases List.mem_append.mp hm with hm | hm
    · obtain ⟨h1, h2, h3, h4⟩ := hcoll.2 m hm
      exact ⟨h2, h3, h4⟩
    · have : m = ⟨a.length, b.length, 0⟩ := by simpa using hm
      subst this
      refine ⟨by dsimp only; omega, by dsimp only; omega, ?_⟩
      intro t ht
      dsimp only at ht
      omega

theorem sliceL_append {α : Type} (l : List α) {i k j : Nat} (h1 : i ≤ k) (h2 : k ≤ j) :
    sliceL l i k ++ sliceL l k j = sliceL l i j := by
  unfold sliceL
  have hd : l.drop k = (l.drop i).drop (k - i) := by
    rw [List.drop_drop]
    congr 1
    omega
  rw [hd]
  have := List.take_add (l.drop i) (k - i) (j - k)
  have he : k - i + (j - k) = j - i := by omega
  rw [he] at this
  rw [← this]

theorem sliceL_nil {α : Type} (l : List α) (i : Nat) : sliceL l i i = [] := by
  unfold sliceL
  simp

theorem walkTo_end_ge {e : Nat × Nat} :
    ∀ (L : List SMMatch) (i j : Nat), WalkTo i j L e → i ≤ e.1 ∧ j ≤ e.2 := by
  intro L
  induction L with
  | nil =>
    intro i j h
    unfold WalkTo at h
    subst h
    exact ⟨le_refl _, le_refl _⟩
  | cons m rest ih =>
    intro i j h
    obtain ⟨h1, h2, h3⟩ := h
    have := ih _ _ h3
    exact ⟨by omega, by omega⟩

theorem opcodesLoop_cover {α : Type} (a b : List α) {ea eb : Nat} :
    ∀ (L : List SMMatch) (i j : Nat), WalkTo i j L (ea, eb) →
      ((opcodesLoop i j L).map (fun o => sliceL a o.i1 o.i2)).flatten = sliceL a i ea ∧
      ((opcodesLoop i j L).map (fun o => sliceL b o.j1 o.j2)).flatten = sliceL b j eb := by
  intro L
  induction L with
  | nil =>
    intro i j h
    unfold WalkTo at h
    have h1 : ea = i := congrArg Prod.fst h
    have h2 : eb = j := congrArg Prod.snd h
    subst h1
    subst h2
    simp [opcodesLoop, sliceL_nil]
  | cons m rest ih =>
    intro i j h
    obtain ⟨h1, h2, h3⟩ := h
    obtain ⟨hge1, hge2⟩ := walkTo_end_ge rest _ _ h3
    simp only at hge1 hge2
    obtain ⟨ihA, ihB⟩ := ih _ _ h3
    unfold opcodesLoop
    constructor
    · rw [List.map_append, List.map_append, List.flatten_append, List.flatten_append, ihA]
      have htag : ((if i < m.i ∧ j < m.j then [(⟨OpTag.replace, i, m.i, j, m.j⟩ : Opcode)]
          else if i < m.i then [⟨OpTag.delete, i, m.i, j, m.j⟩]
          else if j < m.j then [⟨OpTag.insert, i, m.i, j, m.j⟩]
          else []).map (fun o => sliceL a o.i1 o.i2)).flatten = sliceL a i m.i := by
        split_ifs with hc1 hc2 hc3
        · simp
        · simp
        · simp
        · have : i = m.i := by omega
          subst this
          simp [sliceL_nil]
      have heq : ((if m.size ≠ 0 then
          [(⟨OpTag.equal, m.i, m.i + m.size, m.j, m.j + m.size⟩ : Opcode)]
          else []).map (fun o => sliceL a o.i1 o.i2)).flatten =
          sliceL a m.i (m.i + m.size) := by
        split_ifs with hc
        · simp
        · push_neg at hc
          simp [hc, sliceL_nil]
      rw [htag, heq, sliceL_append a h1 (Nat.le_add_right m.i m.size),
        sliceL_append a (by omega) hge1]
    · rw [List.map_append, List.map_append, List.flatten_append, List.flatten_append, ihB]
      have htag : ((if i < m.i ∧ j < m.j then [(⟨OpTag.replace, i, m.i, j, m.j⟩ : Opcode)]
          else if i < m.i then [⟨OpTag.delete, i, m.i, j, m.j⟩]
          else if j < m.j then [⟨OpTag.insert, i, m.i, j, m.j⟩]
          else []).map (fun o => sliceL b o.j1 o.j2)).flatten = sliceL b j m.j := by
        split_ifs with hc1 hc2 hc3
        · simp
        · have : j = m.j := by omega
          subst this
          simp [sliceL_nil]
        · simp
        · have : j = m.j := by omega
          subst this
          simp [sliceL_nil]
      have heq : ((if m.size ≠ 0 then
          [(⟨OpTag.equal, m.i, m.i + m.size, m.j, m.j + m.size⟩ : Opcode)]
          else []).map (fun o => sliceL b o.j1 o.j2)).flatten =
          sliceL b m.j (m.j + m.size) := by
        split_ifs with hc
        · simp
        · push_neg at hc
          simp [hc, sliceL_nil]
      rw [htag, heq, sliceL_append b h2 (Nat.le_add_right m.j m.size),
        sliceL_append b (by omega) hge2]

theorem opcodesLoop_chain :
    ∀ (L : List SMMatch) (i j : Nat) {e : Nat × Nat}, WalkTo i j L e →
      OpsChain i j (opcodesLoop i j L) e := by
  intro L
  induction L with
  | nil =>
    intro i j e h
    exact h
  | cons m rest ih =>
    intro i j e h
    obtain ⟨h1, h2, h3⟩ := h
    have ihc := ih _ _ h3
    unfold opcodesLoop
    by_cases hsz : m.size = 0
    · rw [if_neg (not_not_intro hsz)]
      rw [hsz] at ihc ⊢
      simp only [Nat.add_zero] at ihc ⊢
      split_ifs with hc1 hc2 hc3
      · exact ⟨rfl, rfl, h1, h2, ihc⟩
      · exact ⟨rfl, rfl, h1, h2, ihc⟩
      · exact ⟨rfl, rfl, h1, h2, ihc⟩
      · have hi : m.i = i := by omega
        have hj : m.j = j := by omega
        show OpsChain i j (opcodesLoop m.i m.j rest) e
        rw [hi, hj] at ihc
        rw [hi, hj]
        exact ihc
    · rw [if_pos hsz]
      split_ifs with hc1 hc2 hc3
      · exact ⟨rfl, rfl, h1, h2, rfl, rfl,
          Nat.le_add_right _ _, Nat.le_add_right _ _, ihc⟩
      · exact ⟨rfl, rfl, h1, h2, rfl, rfl,
          Nat.le_add_right _ _, Nat.le_add_right _ _, ihc⟩
      · exact ⟨rfl, rfl, h1, h2, rfl, rfl,
          Nat.le_add_right _ _, Nat.le_add_right _ _, ihc⟩
      · refine ⟨?_, ?_, ?_, ?_, ihc⟩ <;> dsimp only <;> omega

theorem sliceL_get? {α : Type} (l : List α) (i j t : Nat) :
    (sliceL l i j).get? t = if t < j - i then l.get? (i + t) else none := by
  unfold sliceL
  by_cases ht : t < j - i
  · rw [if_pos ht, List.get?_take ht, List.get?_drop]
  · rw [if_neg ht]
    apply List.get?_eq_none.mpr
    have hlen : (List.take (j - i) (l.drop i)).length ≤ j - i := by
      rw [List.length_take]
      omega
    omega

theorem blockValid_slice {α : Type} (a b : List α) (m : SMMatch)
    (hv : BlockValid a b m) :
    sliceL a m.i (m.i + m.size) = sliceL b m.j (m.j + m.size) := by
  apply List.ext_get?
  intro t
  rw [sliceL_get?, sliceL_get?]
  have ha : m.i + m.size - m.i = m.size := by omega
  have hb : m.j + m.size - m.j = m.size := by omega
  rw [ha, hb]
  by_cases ht : t < m.size
  · rw [if_pos ht, if_pos ht]
    obtain ⟨x, hx1, hx2⟩ := hv t ht
    rw [hx1, hx2]
  · rw [if_neg ht, if_neg ht]

theorem opcodesLoop_tags {α : Type} (a b : List α) :
    ∀ (L : List SMMatch) (i j : Nat),
      (∀ m ∈ L, BlockValid a b m) →
      ∀ o ∈ opcodesLoop i j L,
        (o.tag = OpTag.insert → o.j1 < o.j2) ∧
        (o.tag = OpTag.delete → o.i1 < o.i2) ∧
        (o.tag = OpTag.replace → o.i1 < o.i2 ∧ o.j1 < o.j2) ∧
        (o.tag = OpTag.equal → sliceL a o.i1 o.i2 = sliceL b o.j1 o.j2) := by
  intro L
  induction L with
  | nil =>
    intro i j _ o ho
    simp [opcodesLoop] at ho
  | cons m rest ih =>
    intro i j hval o ho
    have hmv := hval m (by simp)
    unfold opcodesLoop at ho
    rcases List.mem_append.mp ho with ho | ho
    · rcases List.mem_append.mp ho with ho | ho
      · -- tag part
        split_ifs at ho with hc1 hc2 hc3
        · have : o = ⟨OpTag.replace, i, m.i, j, m.j⟩ := by simpa using ho
          subst this
          refine ⟨by intro hh; simp at hh, by intro hh; simp at hh, ?_, by intro hh; simp at hh⟩
          intro _
          exact ⟨hc1.1, hc1.2⟩
        · have : o = ⟨OpTag.delete, i, m.i, j, m.j⟩ := by simpa using ho
          subst this
          refine ⟨by intro hh; simp at hh, ?_, by intro hh; simp at hh, by intro hh; simp at hh⟩
          intro _
          exact hc2
        · have : o = ⟨OpTag.insert, i, m.i, j, m.j⟩ := by simpa using ho
          subst this
          refine ⟨?_, by intro hh; simp at hh, by intro hh; simp at hh, by intro hh; simp at hh⟩
          intro _
          exact hc3
        · simp at ho
      · -- equal part
        split_ifs at ho with hc
        · have : o = ⟨OpTag.equal, m.i, m.i + m.size, m.j, m.j + m.size⟩ := by simpa using ho
          subst this
          refine ⟨by intro hh; simp at hh, by intro hh; simp at hh, by intro hh; simp at hh, ?_⟩
          intro _
          exact blockValid_slice a b m hmv
        · simp at ho
    · exact ih _ _ (fun m2 hm2 => hval m2 (by simp [hm2])) o ho

theorem sliceL_full {α : Type} (l : List α) : sliceL l 0 l.length = l := by
  unfold sliceL
  simp

/-- Claim C7: the opcode spans of the aligner form a contiguous,
non-overlapping, non-decreasing chain covering both token sequences
exactly, and concatenating the reference sub-spans (resp. hypothesis
sub-spans) of the opcodes in order reconstructs the reference (resp.
hypothesis) token sequence. -/
theorem claim_C7 (ref hyp : String) :
    OpsChain 0 0 (getOpcodes (pySplit ref) (pySplit hyp))
      ((pySplit ref).length, (pySplit hyp).length) ∧
    ((getOpcodes (pySplit ref) (pySplit hyp)).map
      (fun o => sliceL (pySplit ref) o.i1 o.i2)).flatten = pySplit ref ∧
    ((getOpcodes (pySplit ref) (pySplit hyp)).map
      (fun o => sliceL (pySplit hyp) o.j1 o.j2)).flatten = pySplit hyp := by
  obtain ⟨hwalk, hmem⟩ := getMatchingBlocks_spec (pySplit ref) (pySplit hyp)
  unfold getOpcodes
  refine ⟨opcodesLoop_chain _ 0 0 hwalk, ?_, ?_⟩
  · rw [(opcodesLoop_cover (pySplit ref) (pySplit hyp) _ 0 0 hwalk).1]
    exact sliceL_full _
  · rw [(opcodesLoop_cover (pySplit ref) (pySplit hyp) _ 0 0 hwalk).2]
    exact sliceL_full _

theorem walkTo_sum_le {la lb : Nat} :
    ∀ (L : List SMMatch) (i j : Nat), WalkTo i j L (la, lb) →
      i + (L.map (fun m => m.size)).sum ≤ la ∧
      j + (L.map (fun m => m.size)).sum ≤ lb := by
  intro L
  induction L with
  | nil =>
    intro i j h
    unfold WalkTo at h
    have h1 : la = i := congrArg Prod.fst h
    have h2 : lb = j := congrArg Prod.snd h
    simp [h1, h2]
  | cons m rest ih =>
    intro i j h
    obtain ⟨h1, h2, h3⟩ := h
    have := ih _ _ h3
    simp only [List.map_cons, List.sum_cons]
    constructor <;> omega

theorem rhe_bounds (q : ℚ) : ⌊q⌋ ≤ roundHalfEven q ∧ roundHalfEven q ≤ ⌈q⌉ := by
  unfold roundHalfEven
  split_ifs with h1 h2
  · exact ⟨le_refl _, Int.floor_le_ceil q⟩
  · constructor
    · omega
    · have hfl : (⌊q⌋ : ℚ) < q := by
        have : q - ⌊q⌋ = 1 / 2 := h1
        linarith
      have hcl := Int.le_ceil q
      have : (⌊q⌋ : ℚ) < (⌈q⌉ : ℚ) := lt_of_lt_of_le hfl hcl
      have hz : ⌊q⌋ < ⌈q⌉ := by exact_mod_cast this
      omega
  · rw [round_eq]
    constructor
    · exact Int.floor_le_floor (by linarith)
    · rw [Int.floor_le_iff]
      have := Int.le_ceil q
      push_cast
      linarith

theorem pyRound4_bounds {q : ℚ} (h0 : 0 ≤ q) (h1 : q ≤ 1) :
    0 ≤ pyRound4 q ∧ pyRound4 q ≤ 1 := by
  unfold pyRound4
  obtain ⟨hl, hu⟩ := rhe_bounds (q * 10000)
  have hfl : (0 : ℤ) ≤ ⌊q * 10000⌋ := Int.floor_nonneg.mpr (by positivity)
  have hcl : ⌈q * 10000⌉ ≤ 10000 := by
    rw [Int.ceil_le]
    push_cast
    linarith
  constructor
  · apply div_nonneg _ (by norm_num)
    have : (0 : ℤ) ≤ roundHalfEven (q * 10000) := by omega
    exact_mod_cast this
  · rw [div_le_one (by norm_num)]
    have : roundHalfEven (q * 10000) ≤ 10000 := by omega
    exact_mod_cast this

theorem pyRound4_one : pyRound4 1 = 1 := by
  unfold pyRound4 roundHalfEven
  norm_num [round_eq]

theorem simRatioQ_bounds {α : Type} [DecidableEq α] (a b : List α) :
    0 ≤ simRatioQ a b ∧ simRatioQ a b ≤ 1 := by
  unfold simRatioQ
  have hsum := walkTo_sum_le (getMatchingBlocks a b) 0 0
    (getMatchingBlocks_spec a b).1
  simp only [Nat.zero_add] at hsum
  by_cases hlen : a.length + b.length ≠ 0
  · rw [if_pos hlen]
    constructor
    · positivity
    · rw [div_le_one (by exact_mod_cast Nat.pos_of_ne_zero hlen)]
      have h2 : 2 * ((getMatchingBlocks a b).map (fun m => m.size)).sum ≤
          a.length + b.length := by omega
      exact_mod_cast h2
  · rw [if_neg hlen]
    norm_num

theorem simRatioQ_empty : simRatioQ (([]) : List Char) ([]) = 1 := by
  unfold simRatioQ
  norm_num

/-- Counterexample to C6 as stated: a blank but non-empty reference
(a single space) passes the `if ref` truthiness guard, so with
sacrebleu present and its call succeeding, BLEU is a number rather than
None. -/
theorem claim_C6_counterexample :
    isBlankStr (" ") = true ∧ (compute_scores allOkP ("") (" ")).bleu = some 50 := by
  constructor
  · rfl
  · show (if (" " : String) ≠ "" ∧ allOkP.sacrebleuAvail = true then
        tryRound4 (allOkP.bleuCall ("") (" ")) else none) = some 50
    rw [if_pos (by constructor <;> simp [allOkP])]
    show some (pyRound4 50) = some 50
    norm_num [pyRound4, roundHalfEven, round_eq]

/-- Claim C6 amended: with an empty (rather than merely blank)
reference every library-backed metric is None; the similarity fallback
is always computed, is the 4-decimal rounding of the character-level
SequenceMatcher ratio and lies in [0,1]; and for two empty strings it
is exactly 1. -/
theorem claim_C6_amended :
    (∀ (P : Providers) (hyp : String),
      (compute_scores P hyp ("")).bleu = none ∧
      (compute_scores P hyp ("")).chrf = none ∧
      (compute_scores P hyp ("")).ter = none ∧
      (compute_scores P hyp ("")).bert = none) ∧
    (∀ (P : Providers) (hyp ref : String), ∃ q,
      (compute_scores P hyp ref).similarity = some q ∧
      0 ≤ q ∧ q ≤ 1 ∧ q = pyRound4 (simRatioQ ref.data hyp.data)) ∧
    (∀ P : Providers, (compute_scores P ("") ("")).similarity = some 1) := by
  refine ⟨?_, ?_, ?_⟩
  · intro P hyp
    refine ⟨?_, ?_, ?_, ?_⟩ <;> simp [compute_scores]
  · intro P hyp ref
    refine ⟨pyRound4 (simRatioQ ref.data hyp.data), rfl, ?_, ?_, rfl⟩
    · exact (pyRound4_bounds (simRatioQ_bounds ref.data hyp.data).1
        (simRatioQ_bounds ref.data hyp.data).2).1
    · exact (pyRound4_bounds (simRatioQ_bounds ref.data hyp.data).1
        (simRatioQ_bounds ref.data hyp.data).2).2
  · intro P
    show some (pyRound4 (simRatioQ ("" : String).data ("" : String).data)) = some 1
    rw [show ("" : String).data = [] from rfl, simRatioQ_empty, pyRound4_one]

theorem mem_b2jGet_lt {α : Type} [DecidableEq α] {b : List α} {x : α} {j : Nat}
    (h : j ∈ b2jGet b x) : j < b.length := by
  simp only [b2jGet] at h
  split at h
  · simp at h
  · unfold smPositions at h
    simp only [List.mem_filter, List.mem_range] at h
    exact h.1

theorem b2jGet_sorted {α : Type} [DecidableEq α] (b : List α) (x : α) :
    List.Pairwise (· < ·) (b2jGet b x) := by
  unfold b2jGet
  dsimp only
  split
  · exact List.Pairwise.nil
  · unfold smPositions
    exact (List.pairwise_lt_range b.length).filter _

theorem mem_b2jGet_kept {α : Type} [DecidableEq α] {s : List α} {x : α} {j : Nat}
    (h : j ∈ b2jGet s x) : keptAt s j = true := by
  have hj := mem_b2jGet h
  unfold keptAt
  rw [hj]
  simp only [decide_eq_true_eq]
  -- b2jGet s x is nonempty and equal to b2jGet s (token at j) since tokens match
  have hx : b2jGet s x ≠ [] := fun hc => by rw [hc] at h; exact absurd h (List.not_mem_nil j)
  -- b2jGet s x is the unpurged positions list; j is a position of x
  simp only [b2jGet] at h ⊢
  split at h
  · simp at h
  · rename_i hcond
    rw [if_neg hcond]
    exact h

theorem not_kept_b2jGet_nil {α : Type} [DecidableEq α] {s : List α} {x : α} {i : Nat}
    (hx : s.get? i = some x) (hk : keptAt s i = false) : b2jGet s x = [] := by
  unfold keptAt at hk
  rw [hx] at hk
  simp only [decide_eq_false_iff_not] at hk
  by_contra hne
  apply hk
  simp only [b2jGet] at hne ⊢
  split at hne
  · simp at hne
  · rename_i hcond
    rw [if_neg hcond]
    unfold smPositions
    simp only [List.mem_filter, List.mem_range, decide_eq_true_eq]
    obtain ⟨hlt, -⟩ := List.get?_eq_some.mp hx
    exact ⟨hlt, hx⟩

theorem kept_mem_b2jGet {α : Type} [DecidableEq α] {s : List α} {x : α} {i : Nat}
    (hx : s.get? i = some x) (hk : keptAt s i = true) : i ∈ b2jGet s x := by
  unfold keptAt at hk
  rw [hx] at hk
  simpa using hk

theorem nkRun_eq_of_kept {α : Type} [DecidableEq α] (s : List α) (i : Nat)
    (hk : keptAt s i = true) : nkRun s i = prevAt (nkRun s) i + 1 := by
  rcases i with _ | r
  · show (if keptAt s 0 = true then 1 else 0) = 0 + 1
    rw [if_pos hk]
  · show (if keptAt s (r + 1) = true then nkRun s r + 1 else 0) = nkRun s r + 1
    rw [if_pos hk]

theorem nkRun_eq_zero_of_not_kept {α : Type} [DecidableEq α] (s : List α) (i : Nat)
    (hk : keptAt s i = false) : nkRun s i = 0 := by
  rcases i with _ | r
  · show (if keptAt s 0 = true then 1 else 0) = 0
    rw [hk]
    rfl
  · show (if keptAt s (r + 1) = true then nkRun s r + 1 else 0) = 0
    rw [hk]
    rfl

theorem nkRun_le_maxDiag {α : Type} [DecidableEq α] (s : List α) :
    ∀ (i r : Nat), r < i → nkRun s r ≤ maxDiag s i := by
  intro i
  induction i with
  | zero => intro r hr; omega
  | succ k ih =>
    intro r hr
    unfold maxDiag
    rcases Nat.lt_or_ge r k with hlt | hge
    · exact le_trans (ih r hlt) (le_max_left _ _)
    · have : r = k := by omega
      subst this
      exact le_max_right _ _

theorem maxDiag_succ {α : Type} [DecidableEq α] (s : List α) (i : Nat) :
    maxDiag s (i + 1) = max (maxDiag s i) (nkRun s i) := rfl

theorem prevAt_mono {f g : Nat → Nat} (h : ∀ t, f t ≤ g t) (j : Nat) :
    prevAt f j ≤ prevAt g j := by
  rcases j with _ | r
  · exact Nat.le_refl 0
  · exact h r

theorem smInner_diag {α : Type} [DecidableEq α] (s : List α) (x : α) (i : Nat)
    (hx : s.get? i = some x) (hki : keptAt s i = true) (j2prev : Nat → Nat)
    (hp1 : ∀ jj, j2prev jj ≤ nkRun s jj)
    (hp2 : ∀ jj, j2prev jj ≤ prevAt (nkRun s) i)
    (hp3 : prevAt j2prev i = prevAt (nkRun s) i) :
    ∀ (rem : List Nat) (d : Nat → Nat) (best : SMBest),
      (∀ j ∈ rem, j ∈ b2jGet s x) →
      List.Pairwise (· < ·) rem →
      best.besti = best.bestj →
      ((i ∈ rem ∧ best.bestsize = maxDiag s i ∧
        (∀ jj, d jj ≤ nkRun s jj) ∧ (∀ jj, d jj ≤ nkRun s i)) ∨
       ((∀ j ∈ rem, i < j) ∧ best.bestsize = maxDiag s (i + 1) ∧
        d i = nkRun s i ∧ (∀ jj, d jj ≤ nkRun s jj) ∧ (∀ jj, d jj ≤ nkRun s i))) →
      (smInner 0 s.length i j2prev rem d best).2.besti
          = (smInner 0 s.length i j2prev rem d best).2.bestj ∧
      (smInner 0 s.length i j2prev rem d best).2.bestsize = maxDiag s (i + 1) ∧
      (smInner 0 s.length i j2prev rem d best).1 i = nkRun s i ∧
      (∀ jj, (smInner 0 s.length i j2prev rem d best).1 jj ≤ nkRun s jj) ∧
      (∀ jj, (smInner 0 s.length i j2prev rem d best).1 jj ≤ nkRun s i) := by
  have hnki : nkRun s i = prevAt (nkRun s) i + 1 := nkRun_eq_of_kept s i hki
  intro rem
  induction rem with
  | nil =>
    intro d best _ _ hdiag hstate
    rcases hstate with ⟨hmem, _⟩ | ⟨_, hbs, hdi, hd1, hd2⟩
    · exact absurd hmem (List.not_mem_nil i)
    · exact ⟨hdiag, hbs, hdi, hd1, hd2⟩
  | cons j rem2 ih =>
    intro d best hsub hsort hdiag hstate
    have hmem : j ∈ b2jGet s x := hsub j (List.mem_cons_self j rem2)
    have hjlt : j < s.length := mem_b2jGet_lt hmem
    have hjkept : keptAt s j = true := mem_b2jGet_kept hmem
    have hnkj : nkRun s j = prevAt (nkRun s) j + 1 := nkRun_eq_of_kept s j hjkept
    have hsub2 : ∀ t ∈ rem2, t ∈ b2jGet s x := fun t ht => hsub t (List.mem_cons_of_mem j ht)
    have hsort2 := List.Pairwise.of_cons hsort
    have hall : ∀ t ∈ rem2, j < t := (List.pairwise_cons.mp hsort).1
    have hk_nkj : prevAt j2prev j + 1 ≤ nkRun s j := by
      rw [hnkj]
      exact Nat.add_le_add_right (prevAt_mono hp1 j) 1
    have hk_nki : prevAt j2prev j + 1 ≤ nkRun s i := by
      rw [hnki]
      refine Nat.add_le_add_right ?_ 1
      rcases j with _ | r
      · exact Nat.zero_le _
      · exact hp2 r
    unfold smInner
    rw [if_neg (Nat.not_lt_zero j), if_neg (by omega : ¬ s.length ≤ j)]
    dsimp only
    rcases hstate with ⟨hmemi, hbs, hd1, hd2⟩ | ⟨hgt, hbs, hdi, hd1, hd2⟩
    · by_cases hij : j = i
      · subst hij
        have hkval : prevAt j2prev j + 1 = nkRun s j := by
          rw [hp3]
          omega
        have hupdj : Function.update d j (prevAt j2prev j + 1) j = nkRun s j := by
          rw [Function.update_same, hkval]
        refine ih _ _ hsub2 hsort2 ?_ (Or.inr ⟨hall, ?_, ?_, ?_, ?_⟩)
        · split
          · rfl
          · exact hdiag
        · rw [maxDiag_succ]
          split
          · rename_i hlt
            rw [hbs] at hlt
            rw [hkval] at hlt ⊢
            dsimp only
            omega
          · rename_i hlt
            rw [hbs] at hlt
            rw [hkval] at hlt
            rw [hbs]
            omega
        · exact hupdj
        · intro jj
          by_cases hjj : jj = j
          · subst hjj
            rw [hupdj]
          · rw [Function.update_noteq hjj]
            exact hd1 jj
        · intro jj
          by_cases hjj : jj = j
          · subst hjj
            rw [hupdj]
          · rw [Function.update_noteq hjj]
            exact hd2 jj
      · have hilt : j < i := by
          rcases List.mem_cons.mp hmemi with h | h
          · exact absurd h.symm hij
          · exact (List.pairwise_cons.mp hsort).1 i h
        have hnoup : ¬ best.bestsize < prevAt j2prev j + 1 := by
          rw [hbs]
          have := nkRun_le_maxDiag s i j hilt
          omega
        rw [if_neg hnoup]
        refine ih _ _ hsub2 hsort2 hdiag (Or.inl ⟨?_, hbs, ?_, ?_⟩)
        · rcases List.mem_cons.mp hmemi with h | h
          · exact absurd h.symm hij
          · exact h
        · intro jj
          by_cases hjj : jj = j
          · subst hjj
            rw [Function.update_same]
            exact hk_nkj
          · rw [Function.update_noteq hjj]
            exact hd1 jj
        · intro jj
          by_cases hjj : jj = j
          · subst hjj
            rw [Function.update_same]
            exact hk_nki
          · rw [Function.update_noteq hjj]
            exact hd2 jj
    · have hilt : i < j := hgt j (List.mem_cons_self j rem2)
      have hnoup : ¬ best.bestsize < prevAt j2prev j + 1 := by
        rw [hbs, maxDiag_succ]
        have := Nat.le_max_right (maxDiag s i) (nkRun s i)
        omega
      rw [if_neg hnoup]
      refine ih _ _ hsub2 hsort2 hdiag
        (Or.inr ⟨fun t ht => hgt t (List.mem_cons_of_mem j ht), hbs, ?_, ?_, ?_⟩)
      · rw [Function.update_noteq (by omega : i ≠ j)]
        exact hdi
      · intro jj
        by_cases hjj : jj = j
        · subst hjj
          rw [Function.update_same]
          exact hk_nkj
        · rw [Function.update_noteq hjj]
          exact hd1 jj
      · intro jj
        by_cases hjj : jj = j
        · subst hjj
          rw [Function.update_same]
          exact hk_nki
        · rw [Function.update_noteq hjj]
          exact hd2 jj

theorem keptAt_false_of_none {α : Type} [DecidableEq α] {s : List α} {i : Nat}
    (h : s.get? i = none) : keptAt s i = false := by
  unfold keptAt
  rw [h]

theorem smRows_diag {α : Type} [DecidableEq α] (s : List α) :
    ∀ (cnt i : Nat) (d : Nat → Nat) (best : SMBest),
      (∀ jj, d jj ≤ nkRun s jj) →
      (∀ jj, d jj ≤ prevAt (nkRun s) i) →
      prevAt d i = prevAt (nkRun s) i →
      best.besti = best.bestj →
      best.bestsize = maxDiag s i →
      (smRows s s 0 s.length (List.range' i cnt) d best).besti
        = (smRows s s 0 s.length (List.range' i cnt) d best).bestj := by
  intro cnt
  induction cnt with
  | zero =>
    intro i d best _ _ _ hdiag _
    simpa [smRows] using hdiag
  | succ m ih =>
    intro i d best hd1 hd2 hd3 hdiag hbs
    rw [List.range'_succ]
    unfold smRows
    dsimp only
    rcases hx : s.get? i with _ | x
    · have hki : keptAt s i = false := keptAt_false_of_none hx
      have hnk0 : nkRun s i = 0 := nkRun_eq_zero_of_not_kept s i hki
      refine ih (i + 1) _ _ (fun jj => Nat.zero_le _) ?_ ?_ hdiag ?_
      · intro jj
        exact Nat.zero_le _
      · show (0 : Nat) = nkRun s i
        omega
      · rw [maxDiag_succ, hnk0, Nat.max_zero]
        exact hbs
    · dsimp only
      by_cases hki : keptAt s i = true
      · have hr := smInner_diag s x i hx hki d hd1 hd2 hd3 (b2jGet s x)
          (fun _ => 0) best (fun t ht => ht) (b2jGet_sorted s x) hdiag
          (Or.inl ⟨kept_mem_b2jGet hx hki, hbs,
            fun jj => Nat.zero_le _, fun jj => Nat.zero_le _⟩)
        have hnki : nkRun s i = prevAt (nkRun s) i + 1 := nkRun_eq_of_kept s i hki
        refine ih (i + 1) _ _ hr.2.2.2.1 ?_ ?_ hr.1 hr.2.1
        · intro jj
          exact hr.2.2.2.2 jj
        · exact hr.2.2.1
      · have hki2 : keptAt s i = false := by
          simpa using hki
        have hnil : b2jGet s x = [] := not_kept_b2jGet_nil hx hki2
        have hnk0 : nkRun s i = 0 := nkRun_eq_zero_of_not_kept s i hki2
        rw [hnil]
        refine ih (i + 1) _ _ (fun jj => Nat.zero_le _) ?_ ?_ hdiag ?_
        · intro jj
          exact Nat.zero_le _
        · show (0 : Nat) = nkRun s i
          omega
        · rw [maxDiag_succ, hnk0, Nat.max_zero]
          exact hbs

theorem eqAt_self_diag {α : Type} [DecidableEq α] {s : List α} {k : Nat}
    (h : k < s.length) : eqAt s s k k = true := by
  unfold eqAt
  obtain ⟨y, hy⟩ : ∃ y, s.get? k = some y := by
    rcases hg : s.get? k with _ | y
    · rw [List.get?_eq_none] at hg
      omega
    · exact ⟨y, rfl⟩
  rw [hy]
  simp

theorem smExtL_diag {α : Type} [DecidableEq α] (s : List α) (good : α → Bool)
    (hgood : ∀ y, good y = true) :
    ∀ (bi bs : Nat), bi + bs ≤ s.length →
      smExtL s s good 0 0 bi bi bs = (0, 0, bs + bi) := by
  intro bi
  induction bi with
  | zero =>
    intro bs hle
    rw [smExtL]
    rw [dif_neg (by omega : ¬ ((0:Nat) < 0 ∧ (0:Nat) < 0 ∧
      (match s.get? (0 - 1) with | some y => good y | none => false) = true ∧
      eqAt s s (0 - 1) (0 - 1) = true))]
    rfl
  | succ k ih =>
    intro bs hle
    obtain ⟨y, hy⟩ : ∃ y, s.get? k = some y := by
      rcases hg : s.get? k with _ | y
      · rw [List.get?_eq_none] at hg
        omega
      · exact ⟨y, rfl⟩
    rw [smExtL]
    rw [dif_pos ?_]
    · have h2 : k + 1 - 1 = k := rfl
      rw [h2]
      have := ih (bs + 1) (by omega)
      rw [this]
      have h3 : bs + 1 + k = bs + (k + 1) := by omega
      rw [h3]
    · refine ⟨Nat.succ_pos k, Nat.succ_pos k, ?_, ?_⟩
      · have h2 : k + 1 - 1 = k := rfl
        rw [h2, hy]
        exact hgood y
      · have h2 : k + 1 - 1 = k := rfl
        rw [h2]
        exact eqAt_self_diag (by omega)

theorem smExtR_diag {α : Type} [DecidableEq α] (s : List α) (good : α → Bool)
    (hgood : ∀ y, good y = true) :
    ∀ (fuel bs : Nat), s.length - bs ≤ fuel → bs ≤ s.length →
      smExtR s s good s.length s.length 0 0 bs = s.length := by
  intro fuel
  induction fuel with
  | zero =>
    intro bs hf hle
    have hbs : bs = s.length := by omega
    subst hbs
    rw [smExtR]
    rw [dif_neg (by omega : ¬ ((0:Nat) + s.length < s.length ∧
      (0:Nat) + s.length < s.length ∧
      (match s.get? (0 + s.length) with | some y => good y | none => false) = true ∧
      eqAt s s (0 + s.length) (0 + s.length) = true))]
  | succ m ih =>
    intro bs hf hle
    rcases Nat.lt_or_ge bs s.length with hlt | hge
    · obtain ⟨y, hy⟩ : ∃ y, s.get? bs = some y := by
        rcases hg : s.get? bs with _ | y
        · rw [List.get?_eq_none] at hg
          omega
        · exact ⟨y, rfl⟩
      rw [smExtR]
      rw [dif_pos ?_]
      · exact ih (bs + 1) (by omega) (by omega)
      · refine ⟨by omega, by omega, ?_, ?_⟩
        · have h2 : 0 + bs = bs := by omega
          rw [h2, hy]
          exact hgood y
        · have h2 : 0 + bs = bs := by omega
          rw [h2]
          exact eqAt_self_diag hlt
    · have hbs : bs = s.length := by omega
      subst hbs
      rw [smExtR]
      rw [dif_neg (by omega : ¬ ((0:Nat) + s.length < s.length ∧
        (0:Nat) + s.length < s.length ∧
        (match s.get? (0 + s.length) with | some y => good y | none => false) = true ∧
        eqAt s s (0 + s.length) (0 + s.length) = true))]

theorem smExtL_at_zero {α : Type} [DecidableEq α] (a b : List α) (good : α → Bool)
    (bs : Nat) : smExtL a b good 0 0 0 0 bs = (0, 0, bs) := by
  rw [smExtL]
  exact dif_neg (fun h => absurd h.1 (Nat.lt_irrefl 0))

theorem smExtR_at_full {α : Type} [DecidableEq α] (a b : List α) (good : α → Bool)
    (n bs : Nat) (h : n ≤ bs) : smExtR a b good n n 0 0 bs = bs := by
  rw [smExtR]
  exact dif_neg (fun hc => absurd hc.1 (by omega))

theorem smFLM_self {α : Type} [DecidableEq α] (s : List α) :
    smFindLongestMatch s s noJunk 0 s.length 0 s.length = ⟨0, 0, s.length⟩ := by
  have hgood1 : ∀ y : α, (fun y => !noJunk y) y = true := by
    intro y
    simp [noJunk]
  have hok : BestOk s s 0 s.length 0 s.length
      (smRows s s 0 s.length (List.range' 0 (s.length - 0)) (fun _ => 0) ⟨0, 0, 0⟩) := by
    apply smRows_ok (s.length - 0) 0 (fun _ => 0) ⟨0, 0, 0⟩ (le_refl 0) (by omega)
    · intro j hj
      simp at hj
    · left
      exact ⟨rfl, rfl, rfl⟩
  have hdiag := smRows_diag s (s.length - 0) 0 (fun _ => 0) ⟨0, 0, 0⟩
    (fun jj => Nat.zero_le _) (fun jj => Nat.zero_le _) rfl rfl rfl
  unfold smFindLongestMatch
  set best0 := smRows s s 0 s.length (List.range' 0 (s.length - 0)) (fun _ => 0)
    ⟨0, 0, 0⟩ with hb0
  have hbound : best0.besti + best0.bestsize ≤ s.length := by
    rcases hok with ⟨hz, hbi, _⟩ | ⟨_, _, _, h4, _, _⟩
    · rw [hz, hbi]
      omega
    · exact h4
  dsimp only
  rw [← hdiag]
  rw [smExtL_diag s (fun y => !noJunk y) hgood1 best0.besti best0.bestsize hbound]
  dsimp only
  rw [smExtR_diag s (fun y => !noJunk y) hgood1 s.length
    (best0.bestsize + best0.besti) (by omega) (by omega)]
  rw [smExtL_at_zero s s noJunk s.length]
  dsimp only
  rw [smExtR_at_full s s noJunk s.length s.length (le_refl _)]

theorem smBlocksLoop_self {α : Type} [DecidableEq α] (s : List α) :
    smBlocksLoop s s noJunk [⟨0, s.length, 0, s.length⟩] [] =
      if s.length = 0 then [] else [⟨0, 0, s.length⟩] := by
  rw [smBlocksLoop]
  have hself := smFLM_self s
  split
  rename_i mi mj ms heq
  dsimp only at heq
  rw [hself] at heq
  cases heq
  dsimp only
  by_cases hn : s.length = 0
  · rw [dif_pos hn, if_pos hn, smBlocksLoop]
  · rw [dif_neg hn, if_neg hn]
    rw [if_neg (fun h => absurd h.1 (Nat.lt_irrefl 0))]
    rw [if_neg (by omega : ¬ (0 + s.length < s.length ∧ 0 + s.length < s.length))]
    rw [smBlocksLoop]
    rfl

theorem getMatchingBlocks_self {α : Type} [DecidableEq α] (s : List α) :
    getMatchingBlocks s s =
      if s.length = 0 then [⟨0, 0, 0⟩]
      else [⟨0, 0, s.length⟩, ⟨s.length, s.length, 0⟩] := by
  unfold getMatchingBlocks
  dsimp only
  rw [smBlocksLoop_self]
  by_cases hn : s.length = 0
  · rw [if_pos hn, if_pos hn, hn]
    rfl
  · rw [if_neg hn, if_neg hn]
    simp only [List.insertionSort, List.orderedInsert]
    unfold collapseAdj
    rw [if_pos (by exact ⟨rfl, rfl⟩)]
    unfold collapseAdj
    rw [if_pos (by simpa using hn)]
    simp

theorem getOpcodes_self {α : Type} [DecidableEq α] (s : List α) :
    getOpcodes s s =
      if s.length = 0 then []
      else [⟨OpTag.equal, 0, s.length, 0, s.length⟩] := by
  unfold getOpcodes
  rw [getMatchingBlocks_self]
  by_cases hn : s.length = 0
  · rw [if_pos hn, if_pos hn]
    simp [opcodesLoop]
  · rw [if_neg hn, if_neg hn]
    simp [opcodesLoop]
    exact fun hc => hn (by rw [hc]; rfl)

/-- Claim C2: `token_opcodes` reports `edit_ops = 0` exactly when the
whitespace token sequences of the reference and the hypothesis are
identical. -/
theorem claim_C2 (ref hyp : String) :
    (token_opcodes ref hyp).edit_ops = 0 ↔ pySplit ref = pySplit hyp := by
  constructor
  · intro h
    have hspec := getMatchingBlocks_spec (pySplit ref) (pySplit hyp)
    have hops := foldl_opStep (pySplit ref) (pySplit hyp)
      (getOpcodes (pySplit ref) (pySplit hyp)) ⟨0, 0, 0, [], [], []⟩
    unfold token_opcodes at h
    dsimp only at h
    rw [hops.1, hops.2.1, hops.2.2] at h
    simp only [Nat.zero_add] at h
    have htags := opcodesLoop_tags (pySplit ref) (pySplit hyp)
      (getMatchingBlocks (pySplit ref) (pySplit hyp)) 0 0
      (fun m hm => (hspec.2 m hm).2.2)
    have hall : ∀ o ∈ getOpcodes (pySplit ref) (pySplit hyp), o.tag = OpTag.equal := by
      intro o ho
      unfold getOpcodes at ho
      have ht := htags o ho
      cases htag : o.tag with
      | equal => rfl
      | insert =>
        have hj := ht.1 htag
        have hmem : (o.j2 - o.j1) ∈ ((opcodesLoop 0 0
            (getMatchingBlocks (pySplit ref) (pySplit hyp))).filter
            (fun o => decide (o.tag = OpTag.insert))).map (fun o => o.j2 - o.j1) :=
          List.mem_map_of_mem _ (List.mem_filter.mpr ⟨ho, by rw [htag]; simp⟩)
        have hle := List.single_le_sum (fun x _ => Nat.zero_le x) _ hmem
        unfold insSum getOpcodes at h
        omega
      | delete =>
        have hi := ht.2.1 htag
        have hmem : (o.i2 - o.i1) ∈ ((opcodesLoop 0 0
            (getMatchingBlocks (pySplit ref) (pySplit hyp))).filter
            (fun o => decide (o.tag = OpTag.delete))).map (fun o => o.i2 - o.i1) :=
          List.mem_map_of_mem _ (List.mem_filter.mpr ⟨ho, by rw [htag]; simp⟩)
        have hle := List.single_le_sum (fun x _ => Nat.zero_le x) _ hmem
        unfold delSum getOpcodes at h
        omega
      | replace =>
        have hij := ht.2.2.1 htag
        have hmem : (max (o.i2 - o.i1) (o.j2 - o.j1)) ∈ ((opcodesLoop 0 0
            (getMatchingBlocks (pySplit ref) (pySplit hyp))).filter
            (fun o => decide (o.tag = OpTag.replace))).map
            (fun o => max (o.i2 - o.i1) (o.j2 - o.j1)) :=
          List.mem_map_of_mem _ (List.mem_filter.mpr ⟨ho, by rw [htag]; simp⟩)
        have hle := List.single_le_sum (fun x _ => Nat.zero_le x) _ hmem
        unfold repSum getOpcodes at h
        omega
    have hcov := opcodesLoop_cover (pySplit ref) (pySplit hyp)
      (getMatchingBlocks (pySplit ref) (pySplit hyp)) 0 0 hspec.1
    rw [sliceL_full] at hcov
    have hcov2 := hcov.2
    rw [sliceL_full] at hcov2
    have hmapeq : (opcodesLoop 0 0
        (getMatchingBlocks (pySplit ref) (pySplit hyp))).map
          (fun o => sliceL (pySplit ref) o.i1 o.i2) =
        (opcodesLoop 0 0
        (getMatchingBlocks (pySplit ref) (pySplit hyp))).map
          (fun o => sliceL (pySplit hyp) o.j1 o.j2) := by
      refine List.map_congr_left ?_
      intro o ho
      exact (htags o ho).2.2.2 (hall o (by unfold getOpcodes; exact ho))
    calc pySplit ref
        = ((opcodesLoop 0 0 (getMatchingBlocks (pySplit ref) (pySplit hyp))).map
            (fun o => sliceL (pySplit ref) o.i1 o.i2)).flatten := hcov.1.symm
      _ = ((opcodesLoop 0 0 (getMatchingBlocks (pySplit ref) (pySplit hyp))).map
            (fun o => sliceL (pySplit hyp) o.j1 o.j2)).flatten := by rw [hmapeq]
      _ = pySplit hyp := hcov2
  · intro h
    unfold token_opcodes
    dsimp only
    rw [← h]
    rw [getOpcodes_self]
    by_cases hl : (pySplit ref).length = 0
    · rw [if_pos hl]
      rfl
    · rw [if_neg hl]
      rfl
